import Mathlib

/-
Verification development for the acforge CLI template synchronization core
(src/cli/src/ai_code_forge_cli/core/init.py and core/update.py).

Strings are modelled as lists of characters (Str).  The collaborator modules
state.py and templates.py (StateManager / TemplateManager) are not part of the
available sources; where needed they are modelled from the specification, and
each such definition carries a doc comment saying so.  Everything else is a
direct translation of the Python source.  Recursions over text use a fuel
argument equal to the input length so that every definition is structurally
recursive and computable by the kernel; fuel-irrelevance lemmas below justify
the usual unfolding equations.
-/

abbrev Str := List Char

/-- Boolean test: pat is a prefix of s (character by character). -/
def leadsWith : Str → Str → Bool
  | [], _ => true
  | _ :: _, [] => false
  | p :: ps, c :: cs => p == c && leadsWith ps cs

/-- Boolean test: pat occurs as a contiguous substring of s. -/
def occursIn (pat : Str) : Str → Bool
  | [] => leadsWith pat []
  | c :: cs => leadsWith pat (c :: cs) || occursIn pat cs

/-- Boolean test: pat is a suffix of s (Python endswith). -/
def endsWithSeq (pat s : Str) : Bool :=
  leadsWith pat.reverse s.reverse

/-- Characters allowed in a placeholder name: the regex class with the
uppercase letters and the underscore. -/
def isNameChar (c : Char) : Bool :=
  (decide ('A' ≤ c) && decide (c ≤ 'Z')) || c == '_'

/-- The literal placeholder text for a name: two opening braces, the name,
two closing braces. -/
def tokStr (n : Str) : Str :=
  '{' :: '{' :: (n ++ '}' :: '}' :: [])

/-- If s begins with a complete placeholder match of the regex pattern
(two opening braces, a nonempty run of name characters, two closing braces),
return the name and the remainder after the match; otherwise none.  Mirrors
one match attempt of re.finditer at the current position: the greedy name run
must be followed immediately by two closing braces, and no other backtracking
is possible for this pattern. -/
def tokenHead (s : Str) : Option (Str × Str) :=
  match s with
  | c1 :: c2 :: r =>
    if c1 = '{' ∧ c2 = '{' then
      match r.dropWhile isNameChar with
      | d1 :: d2 :: r2 =>
        if d1 = '}' ∧ d2 = '}' ∧ r.takeWhile isNameChar ≠ [] then
          some (r.takeWhile isNameChar, r2)
        else none
      | _ => none
    else none
  | _ => none

/-- Fuel-indexed worker for the re.finditer scan. -/
def findTokensF : Nat → Str → List Str
  | 0, _ => []
  | fuel + 1, s =>
    match s with
    | [] => []
    | c :: cs =>
      match tokenHead (c :: cs) with
      | some (n, r) => n :: findTokensF fuel r
      | none => findTokensF fuel cs

/-- Embedding of the re.finditer scan in ParameterSubstitutor.substitute_content:
the list of placeholder names matched in the content, in match order.
On a failed match attempt the scan advances one character; after a match it
continues just past the match. -/
def findTokens (s : Str) : List Str := findTokensF s.length s

/-- First-match association lookup, modelling a Python dict read. -/
def assocFind {α : Type} : List (Str × α) → Str → Option α
  | [], _ => none
  | (k, v) :: rest, n => if k = n then some v else assocFind rest n

/-- Add a name to the substituted-name collection unless already present,
modelling set.add on self.substituted_params. -/
def insertNew (subs : List Str) (n : Str) : List Str :=
  if subs.contains n then subs else subs ++ [n]

/-- Fuel-indexed worker for str.replace. -/
def replaceAllF : Nat → Str → Str → Str → Str
  | 0, _, _, s => s
  | fuel + 1, pat, v, s =>
    match s with
    | [] => []
    | c :: cs =>
      if leadsWith pat (c :: cs) && !pat.isEmpty then
        v ++ replaceAllF fuel pat v (List.drop pat.length (c :: cs))
      else
        c :: replaceAllF fuel pat v cs

/-- Embedding of Python str.replace(pat, v) for a nonempty pattern: scan left
to right, replace each non-overlapping occurrence, never rescanning
replacement text.  (The pattern is always nonempty where this is used; for an
empty pattern this model is the identity.) -/
def replaceAll (pat v s : Str) : Str := replaceAllF s.length pat v s

/-- One loop iteration of ParameterSubstitutor.substitute_content: if the
matched name is a key of the mapping, globally replace its placeholder in the
current result and record the name; a mapping value of none models Python
None, on which str.replace raises TypeError (modelled as an error carrying
the names recorded so far).  Names that are not keys are skipped. -/
def substStep (params : List (Str × Option Str)) :
    Except (List Str) (Str × List Str) → Str → Except (List Str) (Str × List Str)
  | .error subs, _ => .error subs
  | .ok (res, subs), n =>
    match assocFind params n with
    | none => .ok (res, subs)
    | some none => .error subs
    | some (some v) => .ok (replaceAll (tokStr n) v res, insertNew subs n)

/-- Embedding of ParameterSubstitutor.substitute_content: iterate over the
matches of the original content in order, performing one global replacement
per matched key occurrence on the evolving result, threading the shared
substituted-name set subs0. -/
def substitute_content (params : List (Str × Option Str)) (subs0 : List Str)
    (content : Str) : Except (List Str) (Str × List Str) :=
  (findTokens content).foldl (substStep params) (.ok (content, subs0))

/-- Lexicographic comparison of character lists by code point, matching the
order Python sorted uses on strings. -/
def strLeB : Str → Str → Bool
  | [], _ => true
  | _ :: _, [] => false
  | a :: as_, b :: bs => decide (a < b) || (a == b && strLeB as_ bs)

/-- Insert into a strLeB-sorted list, keeping it sorted. -/
def sinsert (x : Str) : List Str → List Str
  | [] => [x]
  | y :: ys => if strLeB x y then x :: y :: ys else y :: sinsert x ys

/-- Insertion sort by strLeB, modelling Python sorted on a list of strings. -/
def sortStr : List Str → List Str
  | [] => []
  | x :: xs => sinsert x (sortStr xs)

/-- Embedding of ParameterSubstitutor.get_substituted_parameters: the sorted
list of the recorded names. -/
def get_substituted_parameters (subs : List Str) : List Str :=
  sortStr subs

/-- Fuel-indexed worker for specSubstitute. -/
def specSubstituteF : Nat → List (Str × Str) → Str → Str
  | 0, _, s => s
  | fuel + 1, params, s =>
    match s with
    | [] => []
    | c :: cs =>
      match tokenHead (c :: cs) with
      | some (n, r) =>
        match assocFind params n with
        | some v => v ++ specSubstituteF fuel params r
        | none => tokStr n ++ specSubstituteF fuel params r
      | none => c :: specSubstituteF fuel params cs

/-- Modelled from the spec (claim-side refinement definition): the simultaneous
substitution semantics the specification ascribes to substitute_content, in
which every placeholder occurrence of the original content whose name is a
mapping key is replaced by that key's value, and every other character of the
original content, including placeholders with non-key names, is emitted
verbatim. -/
def specSubstitute (params : List (Str × Str)) (s : Str) : Str :=
  specSubstituteF s.length params s

/-- Strip a trailing ".template" suffix from a template path, as in
TemplateDeployer._map_template_to_target. -/
def stripTemplateSuffix (t : Str) : Str :=
  if endsWithSeq (".template").data t then List.take (t.length - 9) t else t

/-- Embedding of TemplateDeployer._map_template_to_target: the special case
maps CLAUDE.md.template to claude_dir/CLAUDE.md, and every other template
keeps its relative path under claude_dir with the .template suffix stripped.
Path joining is modelled as concatenation with a slash. -/
def map_template_to_target (templatePath : Str) (claudeDir : Str) : Str :=
  if templatePath = ("CLAUDE.md.template").data then
    claudeDir ++ ("/CLAUDE.md").data
  else
    claudeDir ++ '/' :: stripTemplateSuffix templatePath

/- ----------------------------------------------------------------------
The state, template-catalog and filesystem model used by the command-level
code of init.py and update.py.
---------------------------------------------------------------------- -/

/-- Modelled from the spec: a bundle checksum is a deterministic hash of all
per-file checksums in the catalog order; it is modelled as that very list of
per-file checksums (a perfect hash), so two bundles agree on the checksum
exactly when the per-file checksum lists agree. -/
abbrev Bundle := List (Str × Option Str)

/-- Persisted installation record (state.py InstallationState, modelled from
the spec).  The shortened template-version text is modelled by the full
bundle checksum. -/
structure InstallationState where
  template_version : Bundle
  installed_at : Str
  cli_version : Str
deriving DecidableEq

/-- Persisted template record (state.py, modelled from the spec): the bundle
checksum at the last deploy and the per-file checksum map. -/
structure TemplatesState where
  checksum : Bundle
  files : List (Str × Str)
deriving DecidableEq

/-- Persisted state document (state.py ACFState, modelled from the spec). -/
structure ACFState where
  installation : Option InstallationState
  templates : Option TemplatesState
deriving DecidableEq

/-- The target directory tree: a flat map from relative path to file content,
the set of directories known to exist, the persisted state document (none
when the state file is absent), and a log of every file write performed. -/
structure World where
  files : List (Str × Str)
  dirs : List Str
  state : Option ACFState
  writeLog : List Str
deriving DecidableEq

/-- Modelled from the spec: templates.py (TemplateManager) is not under the
available sources.  The catalog is the read-only list of template relative
paths with their content; none models an unreadable template. -/
structure TemplateManager where
  catalog : List (Str × Option Str)
deriving DecidableEq

/-- Modelled from the spec: the per-file content checksum, modelled as a
perfect hash (the content itself), so distinct contents have distinct
checksums. -/
def fileChecksum (content : Str) : Str := content

/-- The list of template relative paths of the catalog. -/
def list_template_files (tm : TemplateManager) : List Str :=
  tm.catalog.map Prod.fst

/-- Template content lookup; none when absent or unreadable. -/
def get_template_content (tm : TemplateManager) (p : Str) : Option Str :=
  match assocFind tm.catalog p with
  | some c => c
  | none => none

/-- Per-file checksum of a catalog template; none when unreadable. -/
def get_template_info (tm : TemplateManager) (p : Str) : Option Str :=
  (get_template_content tm p).map fileChecksum

/-- Modelled from the spec: the aggregate bundle checksum, the perfect hash of
all per-file checksums in catalog order. -/
def calculate_bundle_checksum (tm : TemplateManager) : Bundle :=
  tm.catalog.map (fun pc => (pc.1, pc.2.map fileChecksum))

/-- Modelled from the spec: the aggregate checksum of exactly a recorded set
of per-file checksums, used to state the state-file invariant. -/
def aggregateOfFiles (files : List (Str × Str)) : Bundle :=
  files.map (fun pc => (pc.1, some pc.2))

/-- Modelled from the spec: StateManager.load_state returns an empty state
document when the state file is absent. -/
def load_state (w : World) : ACFState :=
  w.state.getD { installation := none, templates := none }

/-- Modelled from the spec: StateManager.save_state persists the document. -/
def save_state (w : World) (st : ACFState) : World :=
  { w with state := some st }

/-- Overwrite-or-create semantics of write_text on the flat file map. -/
def fsWrite (files : List (Str × Str)) (p c : Str) : List (Str × Str) :=
  if (assocFind files p).isSome then
    files.map (fun e => if e.1 = p then (p, c) else e)
  else files ++ [(p, c)]

/-- Perform a file write in the world, recording it in the write log. -/
def writeText (w : World) (p c : Str) : World :=
  { w with files := fsWrite w.files p c, writeLog := w.writeLog ++ [p] }

/-- Record a directory creation (mkdir with parents allowed, exist_ok). -/
def mkdirp (w : World) (d : Str) : World :=
  { w with dirs := w.dirs ++ [d] }

/-- The directory separator character. -/
def slash : Char := '/'

/-- Directory existence test: previously created, or implied by a file living
under it, or (for the state directory) implied by a persisted state file. -/
def dirExists (w : World) (d : Str) : Bool :=
  w.dirs.contains d || w.files.any (fun e => leadsWith (d ++ [slash]) e.1)
    || (d = (".acf").data && w.state.isSome)

/-- The directory part of a relative path (text before the last slash). -/
def parentOf (p : Str) : Str :=
  ((p.reverse.dropWhile (fun c => !(c == slash))).drop 1).reverse

/-- The file-name part of a relative path (text after the last slash). -/
def fileName (p : Str) : Str :=
  (p.reverse.takeWhile (fun c => !(c == slash))).reverse

/-- The nested configuration directory name. -/
def claudeDirStr : Str := (".claude").data

/-- The state directory name. -/
def acfDirStr : Str := (".acf").data

/-- Accumulated results of TemplateDeployer.deploy_templates. -/
structure DeployResult where
  files_deployed : List Str
  errors : List Str
  parameters_substituted : List Str
  deployed_files : List Str
deriving DecidableEq

/-- The per-file read-error entry text. -/
def errCouldNotRead (p : Str) : Str := ("Could not read template: ").data ++ p

/-- The per-file deployment-exception entry text (the caught exception from
the substitution step). -/
def errDeploying (p : Str) : Str := ("Error deploying ").data ++ p

/-- One iteration of the deployment loop of TemplateDeployer.deploy_templates:
read the template (error entry and continue when unreadable), substitute
parameters (a raised TypeError is caught as an error entry), map to the
destination path, and unless dry create the parent directory and write. -/
def deployStep (tm : TemplateManager) (params : List (Str × Option Str)) (dry : Bool) :
    DeployResult × List Str × World → Str → DeployResult × List Str × World
  | (res, subs, w), tp =>
  match get_template_content tm tp with
  | none => ({ res with errors := res.errors ++ [errCouldNotRead tp] }, subs, w)
  | some content =>
    match substitute_content params subs content with
    | .error subs2 => ({ res with errors := res.errors ++ [errDeploying tp] }, subs2, w)
    | .ok (processed, subs2) =>
      let target := map_template_to_target tp claudeDirStr
      let w2 := if dry then w else writeText (mkdirp w (parentOf target)) target processed
      ({ res with
          files_deployed := res.files_deployed ++ [target],
          deployed_files := res.deployed_files ++ [tp] }, subs2, w2)

/-- Embedding of TemplateDeployer.deploy_templates: create the fixed
directory skeleton unless dry, then run the deployment loop over the catalog
with one shared parameter substitutor, and sort the substituted names. -/
def deploy_templates (tm : TemplateManager) (params : List (Str × Option Str))
    (dry : Bool) (w : World) : DeployResult × World :=
  let w0 :=
    if dry then w else
      mkdirp (mkdirp (mkdirp (mkdirp w claudeDirStr)
        (claudeDirStr ++ ("/agents/foundation").data))
        (claudeDirStr ++ ("/agents/specialists").data))
        (claudeDirStr ++ ("/commands").data)
  let start : DeployResult × List Str × World :=
    ({ files_deployed := [], errors := [], parameters_substituted := [], deployed_files := [] }, [], w0)
  let out := (list_template_files tm).foldl (deployStep tm params dry) start
  ({ out.1 with parameters_substituted := get_substituted_parameters out.2.1 }, out.2.2)

/-- Best-effort repository metadata, the oracle output of
RepositoryDetector.detect_github_info (external process calls). -/
structure RepoInfo where
  github_owner : Option Str
  project_name : Option Str
  repo_url : Option Str
deriving DecidableEq

/-- Python falsy-or-default: a missing or empty text falls back to d. -/
def orElseStr (o : Option Str) (d : Str) : Str :=
  match o with
  | some s => if s = [] then d else s
  | none => d

/-- Modelled from the spec: stand-in text for the shortened bundle-checksum
interpolated as TEMPLATE_VERSION; its exact text is opaque to every claim. -/
def versionMark : Str := ("bundle-version").data

/-- Embedding of InitCommand._prepare_parameters. -/
def prepare_parameters (ri : RepoInfo) (now acfv : Str) : List (Str × Option Str) :=
  [(("GITHUB_OWNER").data, some (orElseStr ri.github_owner ("unknown").data)),
   (("PROJECT_NAME").data, some (orElseStr ri.project_name ("unknown").data)),
   (("REPO_URL").data, some (orElseStr ri.repo_url ("\x7b\x7bREPO_URL\x7d\x7d").data)),
   (("CREATION_DATE").data, some now),
   (("ACF_VERSION").data, some acfv),
   (("TEMPLATE_VERSION").data, some versionMark)]

/-- Aggregated result object of InitCommand.run. -/
structure InitResult where
  success : Bool
  files_created : List Str
  warnings : List Str
  errors : List Str
deriving DecidableEq

/-- Embedding of InitCommand._initialize_state: record the full bundle
checksum and the per-file info of the successfully deployed templates. -/
def init_state (tm : TemplateManager) (now acfv : Str) (deployed : List Str)
    (w : World) : World :=
  save_state w
    { installation := some
        { template_version := calculate_bundle_checksum tm,
          installed_at := now, cli_version := acfv },
      templates := some
        { checksum := calculate_bundle_checksum tm,
          files := deployed.filterMap
            (fun p => (get_template_info tm p).map (fun c => (p, c))) } }

/-- Embedding of InitCommand.run (the target directory always exists in this
model, being the world itself; interactive prompting is not modelled). -/
def initRun (tm : TemplateManager) (force dry : Bool) (ri : RepoInfo)
    (now acfv : Str) (w : World) : InitResult × World :=
  let hasAcf := dirExists w acfDirStr
  let hasClaude := dirExists w claudeDirStr
  if (hasAcf || hasClaude) && !force then
    ({ success := false, files_created := [], warnings := [],
       errors := [("configuration already exists; use force to overwrite").data] }, w)
  else
    let params := prepare_parameters ri now acfv
    let step1 := if dry then (w, ([] : List Str)) else (mkdirp w acfDirStr, [(".acf/").data])
    let dep := deploy_templates tm params dry step1.1
    let warns := if dep.1.errors ≠ [] then dep.1.errors else []
    let w3 := if dry then dep.2 else init_state tm now acfv dep.1.deployed_files dep.2
    let created := step1.2 ++ dep.1.files_deployed ++ (if dry then [] else [(".acf/state.json").data])
    ({ success := true, files_created := created, warnings := warns, errors := dep.1.errors }, w3)

/-- Analysis status of UpdateAnalyzer.analyze_changes. -/
inductive UStatus where
  | unknownStatus
  | notInit
  | upToDate
  | updateAvailable
deriving DecidableEq

/-- Result record of UpdateAnalyzer.analyze_changes. -/
structure Analysis where
  status : UStatus
  needs_update : Bool
  current_version : Option Bundle
  available_version : Bundle
  new_templates : List Str
  updated_templates : List Str
  removed_templates : List Str
  conflicts : List Str
  preserved_customizations : List Str
deriving DecidableEq

/-- The default-valued analysis record before any field is filled. -/
def baseAnalysis : Analysis :=
  { status := .unknownStatus, needs_update := false, current_version := none,
    available_version := [], new_templates := [], updated_templates := [],
    removed_templates := [], conflicts := [], preserved_customizations := [] }

/-- The customization marker with trailing dot, as matched by the rglob
pattern star dot-local-dot star against file names. -/
def localDotMark : Str := (".local.").data

/-- The customization marker removed by the base-name derivation
(str.replace of dot-local by the empty text). -/
def localMark : Str := (".local").data

/-- Embedding of UpdateAnalyzer._analyze_conflicts: scan the configuration
directory for files whose name carries the customization marker; derive each
base name by deleting every dot-local occurrence; a customization whose base
name is a substring of, or a suffix-wise match against, a template being
updated is preserved, and additionally a conflict when non-empty.  Returns
(conflicts, preserved). -/
def analyze_conflicts (w : World) (toUpdate : List Str) : List Str × List Str :=
  if !(dirExists w claudeDirStr) then ([], [])
  else
    w.files.foldl
      (fun (acc : List Str × List Str) fc =>
        if leadsWith (claudeDirStr ++ [slash]) fc.1
            && occursIn localDotMark (fileName fc.1) then
          let rel := fc.1.drop (claudeDirStr.length + 1)
          let base := replaceAll localMark [] rel
          if toUpdate.any (fun t => occursIn base t || endsWithSeq base t) then
            ((if fc.2 ≠ [] then acc.1 ++ [rel] else acc.1), acc.2 ++ [rel])
          else acc
        else acc)
      ([], [])

/-- Embedding of UpdateAnalyzer.analyze_changes: a pure classification of the
stored state against the available catalog; it performs no writes. -/
def analyze_changes (tm : TemplateManager) (w : World) : Analysis :=
  let st := load_state w
  match st.installation with
  | none => { baseAnalysis with status := .notInit }
  | some _ =>
    let availableChecksum := calculate_bundle_checksum tm
    let currentChecksum : Option Bundle := st.templates.map (fun t => t.checksum)
    if currentChecksum = some availableChecksum then
      { baseAnalysis with
          status := .upToDate
          current_version := currentChecksum
          available_version := availableChecksum }
    else
      let currentFiles := match st.templates with | some t => t.files | none => []
      let currentPaths := currentFiles.map Prod.fst
      let available := list_template_files tm
      let newT := available.filter (fun p => !(currentPaths.contains p))
      let removedT := currentPaths.filter (fun p => !(available.contains p))
      let updatedT := available.filter (fun p =>
        currentPaths.contains p &&
          match get_template_info tm p, assocFind currentFiles p with
          | some avail, some cur => !(cur == avail)
          | _, _ => false)
      let cp := analyze_conflicts w (newT ++ updatedT)
      { status := .updateAvailable, needs_update := true,
        current_version := currentChecksum, available_version := availableChecksum,
        new_templates := newT, updated_templates := updatedT,
        removed_templates := removedT,
        conflicts := cp.1, preserved_customizations := cp.2 }

/-- Aggregated result object of UpdateCommand.run. -/
structure UpdateResult where
  success : Bool
  files_updated : List Str
  files_preserved : List Str
  warnings : List Str
  errors : List Str
deriving DecidableEq

/-- Embedding of CustomizationPreserver.preserve_during_update: copy each
existing customization into a timestamp-namespaced backup location, returning
the backup mapping. -/
def preserve_during_update (now : Str) (paths : List Str) (w : World) :
    List (Str × Str) × World :=
  paths.foldl
    (fun (acc : List (Str × Str) × World) rel =>
      let srcPath := claudeDirStr ++ slash :: rel
      match assocFind acc.2.files srcPath with
      | some content =>
        let bpath := acfDirStr ++ ("/backups/").data ++ now ++ slash :: rel
        (acc.1 ++ [(rel, bpath)],
         writeText (mkdirp acc.2 (parentOf bpath)) bpath content)
      | none => acc)
    ([], w)

/-- Embedding of CustomizationPreserver.restore_customizations: copy each
existing backup back over the original path. -/
def restore_customizations (backups : List (Str × Str)) (w : World) : World :=
  backups.foldl
    (fun w0 ob =>
      match assocFind w0.files ob.2 with
      | some content =>
        writeText (mkdirp w0 (parentOf (claudeDirStr ++ slash :: ob.1)))
          (claudeDirStr ++ slash :: ob.1) content
      | none => w0)
    w

/-- Embedding of the parameter dictionary built in UpdateCommand._perform_update:
dict.get with a default returns the stored value (possibly None) because the
detector output always carries all three keys. -/
def update_parameters (ri : RepoInfo) (now acfv : Str) : List (Str × Option Str) :=
  [(("GITHUB_OWNER").data, ri.github_owner),
   (("PROJECT_NAME").data, ri.project_name),
   (("REPO_URL").data, ri.repo_url),
   (("CREATION_DATE").data, some now),
   (("ACF_VERSION").data, some acfv),
   (("TEMPLATE_VERSION").data, some versionMark)]

/-- Embedding of UpdateCommand._perform_update: build parameters when an
installation record exists, deploy the templates (the loop runs over the full
catalog), and report as updated the deployed destinations that contain a
new-or-updated template path as a substring.  Returns
((files_updated, errors), world). -/
def perform_update (tm : TemplateManager) (analysis : Analysis) (ri : RepoInfo)
    (now acfv : Str) (dry : Bool) (w : World) : (List Str × List Str) × World :=
  let st := load_state w
  let params := match st.installation with
    | some _ => update_parameters ri now acfv
    | none => []
  let toUpdate := analysis.new_templates ++ analysis.updated_templates
  let dep := deploy_templates tm params dry w
  ((dep.1.files_deployed.filter (fun f => toUpdate.any (fun t => occursIn t f)),
    dep.1.errors), dep.2)

/-- Embedding of UpdateCommand._update_state under the atomic-update scope:
refresh the installation record and replace the template checksum and
per-file map with the full available catalog. -/
def update_state (tm : TemplateManager) (analysis : Analysis) (now acfv : Str)
    (w : World) : World :=
  let st := load_state w
  let st1 := match st.installation with
    | some inst =>
      { st with installation := some { inst with
          template_version := analysis.available_version
          installed_at := now
          cli_version := acfv } }
    | none => st
  let st2 := match st1.templates with
    | some t =>
      { st1 with templates := some { t with
          checksum := calculate_bundle_checksum tm
          files := (list_template_files tm).filterMap
            (fun p => (get_template_info tm p).map (fun c => (p, c))) } }
    | none => st1
  save_state w st2

/-- Embedding of UpdateCommand.run. -/
def updateRun (tm : TemplateManager) (dry force preserveC : Bool) (ri : RepoInfo)
    (now acfv : Str) (w : World) : UpdateResult × World :=
  let analysis := analyze_changes tm w
  if analysis.status = .notInit then
    ({ success := false, files_updated := [], files_preserved := [], warnings := [],
       errors := [("Repository not set up; run the init command first").data] }, w)
  else if analysis.status = .upToDate then
    ({ success := true, files_updated := [], files_preserved := [], warnings := [],
       errors := [] }, w)
  else if !analysis.needs_update then
    ({ success := true, files_updated := [], files_preserved := [], warnings := [],
       errors := [] }, w)
  else if analysis.conflicts ≠ [] && !force then
    ({ success := false, files_updated := [], files_preserved := [],
       warnings := analysis.conflicts.map
           (fun c => ("Customization conflict detected: ").data ++ c)
         ++ [("Use force to proceed with updates").data],
       errors := [("Conflicts detected; review conflicts and use force to proceed").data] }, w)
  else
    let pact := preserveC && analysis.preserved_customizations ≠ []
    let bk := if pact && !dry then preserve_during_update now analysis.preserved_customizations w
              else ([], w)
    let preservedRes := if pact then analysis.preserved_customizations else []
    let pu := perform_update tm analysis ri now acfv dry bk.2
    let w3 := if preserveC && bk.1 ≠ [] && !dry then restore_customizations bk.1 pu.2 else pu.2
    let w4 := if !dry && pu.1.2 = [] then update_state tm analysis now acfv w3 else w3
    ({ success := true, files_updated := pu.1.1, files_preserved := preservedRes,
       warnings := [], errors := pu.1.2 }, w4)

/- ----------------------------------------------------------------------
Segment model for the amended substitution claim: content whose braces all
belong to well-formed placeholder tokens is an alternation of brace-free
plain runs and tokens.
---------------------------------------------------------------------- -/

/-- A content segment: a brace-free plain run or a placeholder token. -/
inductive Seg where
  | plain (s : Str)
  | tok (n : Str)
deriving DecidableEq

/-- The text of one segment. -/
def renderSeg : Seg → Str
  | .plain s => s
  | .tok n => tokStr n

/-- The text of a segment list. -/
def render (l : List Seg) : Str := (l.map renderSeg).join

/-- A text without brace characters. -/
def braceFree (s : Str) : Bool := s.all (fun c => !(c == '{') && !(c == '}'))

/-- Well-formedness of one segment: plain runs are brace-free and token names
are nonempty runs of name characters. -/
def SegOK : Seg → Bool
  | .plain s => braceFree s
  | .tok n => !n.isEmpty && n.all isNameChar

/-- Well-formedness of a segment list. -/
def SegsOK (l : List Seg) : Bool := l.all SegOK

/-- The token names of a segment list, in order. -/
def tokNames (l : List Seg) : List Str :=
  l.filterMap (fun sg => match sg with | .tok n => some n | .plain _ => none)

/-- Replace the tokens named n0 by a plain run holding v. -/
def substTok (n0 v : Str) : Seg → Seg
  | .tok n => if n = n0 then .plain v else .tok n
  | .plain s => .plain s

/-- The simultaneous substitution on segments: every token whose name is a
mapping key becomes the plain value. -/
def fullSub (params : List (Str × Str)) : Seg → Seg
  | .plain s => .plain s
  | .tok n =>
    match assocFind params n with
    | some v => .plain v
    | none => .tok n

/-- View a plain-string mapping as an optional-value mapping (no None). -/
def toOptParams (params : List (Str × Str)) : List (Str × Option Str) :=
  params.map (fun pr => (pr.1, some pr.2))

/-- The segment transformation performed by the replacement loop: one global
token replacement per processed key name, in order. -/
def applyNames (params : List (Str × Str)) (names : List Str) (segs : List Seg) :
    List Seg :=
  names.foldl
    (fun sg n =>
      match assocFind params n with
      | some v => sg.map (substTok n v)
      | none => sg)
    segs

/-- The recorded-name accumulation performed by the replacement loop. -/
def insKeys (params : List (Str × Str)) (names : List Str) (subs : List Str) :
    List Str :=
  names.foldl
    (fun acc n =>
      match assocFind params n with
      | some _ => insertNew acc n
      | none => acc)
    subs

/-- The per-segment effect of processing a list of names in order. -/
def foldSeg (params : List (Str × Str)) (names : List Str) (sg : Seg) : Seg :=
  names.foldl
    (fun s n =>
      match assocFind params n with
      | some v => substTok n v s
      | none => s)
    sg

/- ----------------------------------------------------------------------
Concrete fixtures used by the claim theorems and witnesses.
---------------------------------------------------------------------- -/

/-- A fixed timestamp oracle value. -/
def fixNow : Str := ("2025-01-01T00:00:00").data

/-- A fixed tool version. -/
def fixAcfv : Str := ("1.0.0").data

/-- Detected repository metadata for the fixtures. -/
def fixRi : RepoInfo :=
  { github_owner := some (("acme").data), project_name := some (("widget").data),
    repo_url := none }

/-- An empty target world. -/
def fixW0 : World := { files := [], dirs := [], state := none, writeLog := [] }

/-- A one-template catalog. -/
def fixTmA : TemplateManager := { catalog := [(("a.md").data, some (("hi").data))] }

/-- A catalog whose single template content changed from old to new. -/
def fixTmX : TemplateManager := { catalog := [(("x.md").data, some (("new").data))] }

/-- The same catalog before the change. -/
def fixTmXold : TemplateManager := { catalog := [(("x.md").data, some (("old").data))] }

/-- State recorded by a successful deploy of the old single-template bundle. -/
def fixStX : ACFState :=
  { installation := some
      { template_version := [], installed_at := ("t0").data, cli_version := ("1").data },
    templates := some
      { checksum := [(("x.md").data, some (("old").data))],
        files := [(("x.md").data, ("old").data)] } }

/-- A world holding that state and one non-empty customization override of the
changed template. -/
def fixWX : World :=
  { files := [((".claude/x.local.md").data, ("c").data)], dirs := [],
    state := some fixStX, writeLog := [] }

/-- A two-template catalog in which only a.md changed. -/
def fixTmAB : TemplateManager :=
  { catalog := [(("a.md").data, some (("A2").data)), (("b.md").data, some (("B").data))] }

/-- State recorded when a.md had the old content and b.md the current one. -/
def fixStAB : ACFState :=
  { installation := some
      { template_version := [], installed_at := ("t0").data, cli_version := ("1").data },
    templates := some
      { checksum := [(("a.md").data, some (("A1").data)), (("b.md").data, some (("B").data))],
        files := [(("a.md").data, ("A1").data), (("b.md").data, ("B").data)] } }

/-- A world with both templates deployed and no customization files. -/
def fixWAB : World :=
  { files := [((".claude/a.md").data, ("A1").data), ((".claude/b.md").data, ("B").data)],
    dirs := [claudeDirStr], state := some fixStAB, writeLog := [] }

/-- A catalog with one readable and one unreadable template. -/
def fixTmBad : TemplateManager :=
  { catalog := [(("a.md").data, some (("A").data)), (("bad.md").data, none)] }

/- ----------------------------------------------------------------------
Helper lemmas: fuel irrelevance and unfolding equations.
---------------------------------------------------------------------- -/

theorem dropWhile_len_le (p : Char → Bool) (l : List Char) :
    (l.dropWhile p).length ≤ l.length := by
  induction l with
  | nil => simp
  | cons a t ih =>
    by_cases h : p a = true <;> simp [List.dropWhile_cons, h] <;> omega

theorem tokenHead_rest_len {s : Str} {n r : Str} (h : tokenHead s = some (n, r)) :
    r.length < s.length := by
  match s with
  | [] => simp [tokenHead] at h
  | [c] => simp [tokenHead] at h
  | c1 :: c2 :: rest =>
    simp only [tokenHead] at h
    split at h
    · split at h
      next d1 d2 r2 hd =>
        split at h
        · have hr : r = r2 := by
            have h2 := h
            simp only [Option.some.injEq, Prod.mk.injEq] at h2
            exact h2.2.symm
          subst hr
          have hlen : (rest.dropWhile isNameChar).length ≤ rest.length :=
            dropWhile_len_le isNameChar rest
          rw [hd] at hlen
          simp only [List.length_cons] at hlen ⊢
          omega
        · simp at h
      next => simp at h
    · simp at h

theorem findTokensF_irrel :
    ∀ f1 f2 s, s.length ≤ f1 → s.length ≤ f2 →
      findTokensF f1 s = findTokensF f2 s := by
  intro f1
  induction f1 with
  | zero =>
    intro f2 s h1 _
    have hs : s = [] := List.eq_nil_of_length_eq_zero (Nat.le_zero.mp h1)
    subst hs
    cases f2 <;> rfl
  | succ f ih =>
    intro f2 s h1 h2
    cases s with
    | nil => cases f2 <;> rfl
    | cons c cs =>
      cases f2 with
      | zero => simp at h2
      | succ g =>
        simp only [findTokensF]
        cases ht : tokenHead (c :: cs) with
        | some p =>
          obtain ⟨n, r⟩ := p
          have hr : r.length < (c :: cs).length := tokenHead_rest_len ht
          simp only [List.length_cons] at h1 h2 hr
          exact congrArg (n :: ·) (ih g r (by omega) (by omega))
        | none =>
          simp only [List.length_cons] at h1 h2
          exact ih g cs (by omega) (by omega)

theorem findTokens_cons (c : Char) (cs : Str) :
    findTokens (c :: cs) =
      match tokenHead (c :: cs) with
      | some (n, r) => n :: findTokens r
      | none => findTokens cs := by
  show findTokensF (c :: cs).length (c :: cs) = _
  simp only [List.length_cons, findTokensF]
  cases ht : tokenHead (c :: cs) with
  | some p =>
    obtain ⟨n, r⟩ := p
    have hr : r.length < (c :: cs).length := tokenHead_rest_len ht
    simp only [List.length_cons] at hr
    exact congrArg (n :: ·) (findTokensF_irrel cs.length r.length r (by omega) (by omega))
  | none =>
    exact findTokensF_irrel cs.length cs.length cs (by omega) (by omega)

theorem replaceAllF_irrel :
    ∀ f1 f2 pat v s, s.length ≤ f1 → s.length ≤ f2 →
      replaceAllF f1 pat v s = replaceAllF f2 pat v s := by
  intro f1
  induction f1 with
  | zero =>
    intro f2 pat v s h1 _
    have hs : s = [] := List.eq_nil_of_length_eq_zero (Nat.le_zero.mp h1)
    subst hs
    cases f2 <;> rfl
  | succ f ih =>
    intro f2 pat v s h1 h2
    cases s with
    | nil => cases f2 <;> rfl
    | cons c cs =>
      cases f2 with
      | zero => simp at h2
      | succ g =>
        simp only [replaceAllF]
        simp only [List.length_cons] at h1 h2
        by_cases hc : (leadsWith pat (c :: cs) && !pat.isEmpty) = true
        · simp only [hc, if_true]
          have hp : 1 ≤ pat.length := by
            rcases pat with _ | ⟨a, b⟩
            · simp [List.isEmpty] at hc
            · simp
          refine congrArg (v ++ ·) (ih g pat v _ ?_ ?_) <;>
            simp only [List.length_drop, List.length_cons] <;> omega
        · simp only [Bool.not_eq_true] at hc
          simp only [hc, if_false]
          exact congrArg (c :: ·) (ih g pat v cs (by omega) (by omega))

theorem replaceAll_cons (pat v : Str) (c : Char) (cs : Str) :
    replaceAll pat v (c :: cs) =
      if leadsWith pat (c :: cs) && !pat.isEmpty then
        v ++ replaceAll pat v (List.drop pat.length (c :: cs))
      else
        c :: replaceAll pat v cs := by
  show replaceAllF (c :: cs).length pat v (c :: cs) = _
  simp only [List.length_cons, replaceAllF]
  by_cases hc : (leadsWith pat (c :: cs) && !pat.isEmpty) = true
  · simp only [hc, if_true]
    have hp : 1 ≤ pat.length := by
      rcases pat with _ | ⟨a, b⟩
      · simp [List.isEmpty] at hc
      · simp
    refine congrArg (v ++ ·) (replaceAllF_irrel _ _ pat v _ ?_ ?_) <;>
      simp only [List.length_drop, List.length_cons] <;> omega
  · simp only [Bool.not_eq_true] at hc
    simp only [hc, if_false]
    exact congrArg (c :: ·) (replaceAllF_irrel _ _ pat v cs (by omega) (by omega))

theorem specSubstituteF_irrel :
    ∀ f1 f2 params s, s.length ≤ f1 → s.length ≤ f2 →
      specSubstituteF f1 params s = specSubstituteF f2 params s := by
  intro f1
  induction f1 with
  | zero =>
    intro f2 params s h1 _
    have hs : s = [] := List.eq_nil_of_length_eq_zero (Nat.le_zero.mp h1)
    subst hs
    cases f2 <;> rfl
  | succ f ih =>
    intro f2 params s h1 h2
    cases s with
    | nil => cases f2 <;> rfl
    | cons c cs =>
      cases f2 with
      | zero => simp at h2
      | succ g =>
        simp only [specSubstituteF]
        simp only [List.length_cons] at h1 h2
        split
        · rename_i n r ht
          have hr : r.length < (c :: cs).length := tokenHead_rest_len ht
          simp only [List.length_cons] at hr
          split
          · rename_i v _
            exact congrArg (v ++ ·) (ih g params r (by omega) (by omega))
          · exact congrArg (tokStr n ++ ·) (ih g params r (by omega) (by omega))
        · exact congrArg (c :: ·) (ih g params cs (by omega) (by omega))

theorem specSubstitute_cons (params : List (Str × Str)) (c : Char) (cs : Str) :
    specSubstitute params (c :: cs) =
      match tokenHead (c :: cs) with
      | some (n, r) =>
        match assocFind params n with
        | some v => v ++ specSubstitute params r
        | none => tokStr n ++ specSubstitute params r
      | none => c :: specSubstitute params cs := by
  show specSubstituteF (c :: cs).length params (c :: cs) = _
  simp only [List.length_cons, specSubstituteF]
  split
  · rename_i n r ht
    have hr : r.length < (c :: cs).length := tokenHead_rest_len ht
    simp only [List.length_cons] at hr
    split
    · rename_i v _
      exact congrArg (v ++ ·)
        (specSubstituteF_irrel cs.length r.length params r (by omega) (by omega))
    · exact congrArg (tokStr n ++ ·)
        (specSubstituteF_irrel cs.length r.length params r (by omega) (by omega))
  · exact congrArg (c :: ·)
      (specSubstituteF_irrel cs.length cs.length params cs (by omega) (by omega))

/- ----------------------------------------------------------------------
Claim theorems on the substitution and path-mapping layer.
---------------------------------------------------------------------- -/

/-- C5: the code maps the designated root document template CLAUDE.md.template
to claude_dir/CLAUDE.md, a path inside the nested configuration directory, not
to the target root; the claim that it is placed at the target root is false at
this input. -/
theorem C5_root_template_mapped_inside_config_dir :
    map_template_to_target (("CLAUDE.md.template").data) claudeDirStr
      = ((".claude/CLAUDE.md").data)
    ∧ leadsWith ((".claude/").data)
        (map_template_to_target (("CLAUDE.md.template").data) claudeDirStr) = true
    ∧ map_template_to_target (("CLAUDE.md.template").data) claudeDirStr
      ≠ (("CLAUDE.md").data) :=
  ⟨rfl, rfl, by decide⟩

/-- C7: on content consisting of the doubled-brace sequence around X with X a
mapping key, substitute_content does match the inner placeholder of X and
replaces it, so the sequence is not left unchanged: the output is an opening
brace pair, the value, and a closing brace pair. -/
theorem C7_doubled_braces_inner_replaced :
    substitute_content [((("X").data), some (("v").data))] []
        (("\x7b\x7b\x7b\x7bX\x7d\x7d\x7d\x7d").data)
      = .ok ((("\x7b\x7bv\x7d\x7d").data), [("X").data])
    ∧ (("\x7b\x7bv\x7d\x7d").data) ≠ (("\x7b\x7b\x7b\x7bX\x7d\x7d\x7d\x7d").data) :=
  ⟨rfl, by decide⟩

/-- C8: when the mapping assigns the None value to key N, substitute_content
on content holding the placeholder of N does not return normally: the
replacement raises (modelled as the error result), instead of substituting an
empty string as the claim states. -/
theorem C8_none_value_raises :
    substitute_content [((("N").data), none)] [] (("\x7b\x7bN\x7d\x7d").data)
      = .error [] :=
  rfl

/-- C6 counterexample: with the mapping sending A to the placeholder text of B
and B to x, the content holding the two placeholders of A and B is rewritten
to xx by the sequential global replacements of the code, whereas the claim
(simultaneous replacement with everything else verbatim, as computed by
specSubstitute) requires the placeholder text injected for A to stay
verbatim. -/
theorem C6_counterexample :
    substitute_content
        [((("A").data), some (("\x7b\x7bB\x7d\x7d").data)),
         ((("B").data), some (("x").data))] []
        (("\x7b\x7bA\x7d\x7d\x7b\x7bB\x7d\x7d").data)
      = .ok ((("xx").data), [("A").data, ("B").data])
    ∧ specSubstitute
        [((("A").data), (("\x7b\x7bB\x7d\x7d").data)),
         ((("B").data), (("x").data))]
        (("\x7b\x7bA\x7d\x7d\x7b\x7bB\x7d\x7d").data)
      = (("\x7b\x7bB\x7d\x7dx").data)
    ∧ (("xx").data) ≠ (("\x7b\x7bB\x7d\x7dx").data) :=
  ⟨rfl, rfl, by decide⟩

/- ----------------------------------------------------------------------
Claim theorems evaluated on the command-level fixtures.
---------------------------------------------------------------------- -/

/-- C2 counterexample: for the one-template catalog on an empty target, the
dry run of init reports only the deployed template, while the wet run
additionally reports the state directory and the state file, so the reported
files_created sets differ between dry and wet runs. -/
theorem C2_counterexample :
    (initRun fixTmA false true fixRi fixNow fixAcfv fixW0).1.files_created
      = [(".claude/a.md").data]
    ∧ (initRun fixTmA false false fixRi fixNow fixAcfv fixW0).1.files_created
      = [(".acf/").data, (".claude/a.md").data, (".acf/state.json").data]
    ∧ ((".acf/").data) ∉
        (initRun fixTmA false true fixRi fixNow fixAcfv fixW0).1.files_created :=
  ⟨rfl, rfl, by decide⟩

/-- C3: in the two-template fixture only a.md is classified updated and
nothing is new, yet the update writes both destination files: the write log
contains the destination of the unchanged template b.md, while the reported
files_updated list does not.  The deployment pass therefore rewrites
templates classified unchanged, contradicting the claim. -/
theorem C3_unchanged_template_rewritten :
    (analyze_changes fixTmAB fixWAB).updated_templates = [("a.md").data]
    ∧ (analyze_changes fixTmAB fixWAB).new_templates = []
    ∧ (updateRun fixTmAB false false false fixRi fixNow fixAcfv fixWAB).2.writeLog
      = [(".claude/a.md").data, (".claude/b.md").data]
    ∧ (updateRun fixTmAB false false false fixRi fixNow fixAcfv fixWAB).1.files_updated
      = [(".claude/a.md").data] :=
  ⟨rfl, rfl, rfl, rfl⟩

/-- C4: on the catalog with one unreadable template, the wet init reports a
non-empty error list and still persists a state whose checksum is the
complete current bundle checksum while its recorded file map omits the
failed template, so the recorded checksum is not the aggregate checksum of
exactly the recorded files. -/
theorem C4_partial_deploy_records_full_checksum :
    (initRun fixTmBad false false fixRi fixNow fixAcfv fixW0).1.errors ≠ []
    ∧ ((load_state (initRun fixTmBad false false fixRi fixNow fixAcfv fixW0).2).templates.map
        TemplatesState.checksum) = some (calculate_bundle_checksum fixTmBad)
    ∧ ((load_state (initRun fixTmBad false false fixRi fixNow fixAcfv fixW0).2).templates.map
        (fun t => aggregateOfFiles t.files)) ≠ some (calculate_bundle_checksum fixTmBad) :=
  ⟨by decide, by decide, by decide⟩

/- ----------------------------------------------------------------------
Deployment-pass lemmas: the reported result is independent of the world and
of the dry flag, and a dry run leaves the world untouched.
---------------------------------------------------------------------- -/

theorem deployStep_result (tm : TemplateManager) (params : List (Str × Option Str))
    (tp : Str) (res : DeployResult) (subs : List Str) :
    ∃ res2 subs2, ∀ (d : Bool) (w : World),
      (deployStep tm params d (res, subs, w) tp).1 = res2
      ∧ (deployStep tm params d (res, subs, w) tp).2.1 = subs2 := by
  cases h : get_template_content tm tp with
  | none =>
    simp only [deployStep, h]
    exact ⟨_, _, fun d w => ⟨rfl, rfl⟩⟩
  | some content =>
    cases h2 : substitute_content params subs content with
    | error s2 =>
      simp only [deployStep, h, h2]
      exact ⟨_, _, fun d w => ⟨rfl, rfl⟩⟩
    | ok pr =>
      obtain ⟨processed, subs2⟩ := pr
      simp only [deployStep, h, h2]
      exact ⟨_, _, fun d w => ⟨rfl, rfl⟩⟩

theorem deployStep_dry_world (tm : TemplateManager) (params : List (Str × Option Str))
    (tp : Str) (res : DeployResult) (subs : List Str) (w : World) :
    (deployStep tm params true (res, subs, w) tp).2.2 = w := by
  cases h : get_template_content tm tp with
  | none => simp only [deployStep, h]
  | some content =>
    cases h2 : substitute_content params subs content with
    | error s2 => simp only [deployStep, h, h2]
    | ok pr =>
      obtain ⟨processed, subs2⟩ := pr
      simp only [deployStep, h, h2, if_true]

theorem deployFold_result (tm : TemplateManager) (params : List (Str × Option Str)) :
    ∀ (tps : List Str) (res : DeployResult) (subs : List Str)
      (d1 d2 : Bool) (w1 w2 : World),
      ((tps.foldl (deployStep tm params d1) (res, subs, w1)).1
        = (tps.foldl (deployStep tm params d2) (res, subs, w2)).1)
      ∧ ((tps.foldl (deployStep tm params d1) (res, subs, w1)).2.1
        = (tps.foldl (deployStep tm params d2) (res, subs, w2)).2.1) := by
  intro tps
  induction tps with
  | nil => intro res subs d1 d2 w1 w2; exact ⟨rfl, rfl⟩
  | cons tp rest ih =>
    intro res subs d1 d2 w1 w2
    simp only [List.foldl_cons]
    obtain ⟨res2, subs2, hstep⟩ := deployStep_result tm params tp res subs
    have e1 : deployStep tm params d1 (res, subs, w1) tp
        = (res2, subs2, (deployStep tm params d1 (res, subs, w1) tp).2.2) := by
      have p1 := (hstep d1 w1).1
      have p2 := (hstep d1 w1).2
      exact Prod.ext p1 (Prod.ext p2 rfl)
    have e2 : deployStep tm params d2 (res, subs, w2) tp
        = (res2, subs2, (deployStep tm params d2 (res, subs, w2) tp).2.2) := by
      have p1 := (hstep d2 w2).1
      have p2 := (hstep d2 w2).2
      exact Prod.ext p1 (Prod.ext p2 rfl)
    rw [e1, e2]
    exact ih res2 subs2 d1 d2 _ _

theorem deployFold_dry_world (tm : TemplateManager) (params : List (Str × Option Str)) :
    ∀ (tps : List Str) (res : DeployResult) (subs : List Str) (w : World),
      (tps.foldl (deployStep tm params true) (res, subs, w)).2.2 = w := by
  intro tps
  induction tps with
  | nil => intro res subs w; rfl
  | cons tp rest ih =>
    intro res subs w
    simp only [List.foldl_cons]
    have e1 : deployStep tm params true (res, subs, w) tp
        = ((deployStep tm params true (res, subs, w) tp).1,
           (deployStep tm params true (res, subs, w) tp).2.1, w) := by
      have p3 := deployStep_dry_world tm params tp res subs w
      exact Prod.ext rfl (Prod.ext rfl p3)
    rw [e1]
    exact ih _ _ w

theorem deploy_templates_result_eq (tm : TemplateManager) (params : List (Str × Option Str))
    (d1 d2 : Bool) (w1 w2 : World) :
    (deploy_templates tm params d1 w1).1 = (deploy_templates tm params d2 w2).1 := by
  unfold deploy_templates
  obtain ⟨h1, h2⟩ := deployFold_result tm params (list_template_files tm)
    { files_deployed := [], errors := [], parameters_substituted := [], deployed_files := [] }
    [] d1 d2 (if d1 then w1 else
      mkdirp (mkdirp (mkdirp (mkdirp w1 claudeDirStr)
        (claudeDirStr ++ ("/agents/foundation").data))
        (claudeDirStr ++ ("/agents/specialists").data))
        (claudeDirStr ++ ("/commands").data))
    (if d2 then w2 else
      mkdirp (mkdirp (mkdirp (mkdirp w2 claudeDirStr)
        (claudeDirStr ++ ("/agents/foundation").data))
        (claudeDirStr ++ ("/agents/specialists").data))
        (claudeDirStr ++ ("/commands").data))
  simp only []
  rw [h1, h2]

theorem deploy_templates_dry_world (tm : TemplateManager)
    (params : List (Str × Option Str)) (w : World) :
    (deploy_templates tm params true w).2 = w := by
  unfold deploy_templates
  simp only [if_true]
  exact deployFold_dry_world tm params (list_template_files tm) _ [] w

/- ----------------------------------------------------------------------
State-preservation lemmas for the backup pass.
---------------------------------------------------------------------- -/

theorem preserve_state_unchanged (now : Str) :
    ∀ (paths : List Str) (bk : List (Str × Str)) (w : World),
      ((paths.foldl
        (fun (acc : List (Str × Str) × World) rel =>
          let srcPath := claudeDirStr ++ slash :: rel
          match assocFind acc.2.files srcPath with
          | some content =>
            let bpath := acfDirStr ++ ("/backups/").data ++ now ++ slash :: rel
            (acc.1 ++ [(rel, bpath)],
             writeText (mkdirp acc.2 (parentOf bpath)) bpath content)
          | none => acc)
        (bk, w)).2).state = w.state := by
  intro paths
  induction paths with
  | nil => intro bk w; rfl
  | cons rel rest ih =>
    intro bk w
    simp only [List.foldl_cons]
    cases hf : assocFind w.files (claudeDirStr ++ slash :: rel) with
    | some content =>
      simp only [hf]
      exact ih _ _
    | none =>
      simp only [hf]
      exact ih bk w

theorem preserve_during_update_state (now : Str) (paths : List Str) (w : World) :
    (preserve_during_update now paths w).2.state = w.state := by
  unfold preserve_during_update
  exact preserve_state_unchanged now paths [] w

/- ----------------------------------------------------------------------
C2 and its support: dry-run purity of both commands.
---------------------------------------------------------------------- -/

theorem perform_update_dry_world (tm : TemplateManager) (a : Analysis) (ri : RepoInfo)
    (now acfv : Str) (w : World) :
    (perform_update tm a ri now acfv true w).2 = w := by
  unfold perform_update
  exact deploy_templates_dry_world tm _ w

theorem perform_update_result_eq (tm : TemplateManager) (a : Analysis) (ri : RepoInfo)
    (now acfv : Str) (d1 d2 : Bool) (w1 w2 : World) (hst : w1.state = w2.state) :
    (perform_update tm a ri now acfv d1 w1).1 = (perform_update tm a ri now acfv d2 w2).1 := by
  unfold perform_update
  simp only [load_state, hst]
  rw [deploy_templates_result_eq tm _ d1 d2 w1 w2]

theorem initRun_dry_world (tm : TemplateManager) (force : Bool) (ri : RepoInfo)
    (now acfv : Str) (w : World) :
    (initRun tm force true ri now acfv w).2 = w := by
  unfold initRun
  by_cases hg : ((dirExists w acfDirStr || dirExists w claudeDirStr) && !force) = true
  · simp only [hg, if_true]
  · simp only [Bool.not_eq_true] at hg
    simp only [hg, Bool.false_eq_true, if_false, if_true]
    exact deploy_templates_dry_world tm _ w

theorem updateRun_dry_world (tm : TemplateManager) (force preserveC : Bool) (ri : RepoInfo)
    (now acfv : Str) (w : World) :
    (updateRun tm true force preserveC ri now acfv w).2 = w := by
  simp only [updateRun]
  split
  · rfl
  · split
    · rfl
    · split
      · rfl
      · split
        · rfl
        · simp only [Bool.not_true, Bool.and_false, Bool.false_and, Bool.false_eq_true,
            if_false]
          rw [perform_update_dry_world]

theorem updateRun_files_updated_dry_eq_wet (tm : TemplateManager) (force preserveC : Bool)
    (ri : RepoInfo) (now acfv : Str) (w : World) :
    (updateRun tm true force preserveC ri now acfv w).1.files_updated
      = (updateRun tm false force preserveC ri now acfv w).1.files_updated := by
  simp only [updateRun]
  split
  · rfl
  · split
    · rfl
    · split
      · rfl
      · split
        · rfl
        · simp only [Bool.not_true, Bool.not_false, Bool.and_false, Bool.and_true,
            Bool.false_eq_true, if_false]
          split
          · rename_i hp
            have he := perform_update_result_eq tm (analyze_changes tm w) ri now acfv
              true false w
              (preserve_during_update now (analyze_changes tm w).preserved_customizations w).2
              (preserve_during_update_state now _ w).symm
            exact congrArg (fun x => x.1) he
          · have he := perform_update_result_eq tm (analyze_changes tm w) ri now acfv
              true false w w rfl
            exact congrArg (fun x => x.1) he

/- ----------------------------------------------------------------------
C1: conflict gating aborts before any write.
---------------------------------------------------------------------- -/

theorem analyze_needs_of_updateAvailable (tm : TemplateManager) (w : World) :
    (analyze_changes tm w).status = UStatus.updateAvailable →
      (analyze_changes tm w).needs_update = true := by
  simp only [analyze_changes]
  split
  · intro h
    simp [baseAnalysis] at h
  · split
    · intro h
      simp [baseAnalysis] at h
    · intro _
      rfl

/-- C1: when analyze_changes reports update_available with a non-empty
conflicts list and UpdateCommand.run is invoked without force, run returns
success False and the world (files, directories, state file and write log)
is returned byte-identical: no template write, no backup, no state write
happens, analyze_changes itself being a pure read of the world. -/
theorem C1_conflict_gating (tm : TemplateManager) (dry preserveC : Bool) (ri : RepoInfo)
    (now acfv : Str) (w : World)
    (hstatus : (analyze_changes tm w).status = UStatus.updateAvailable)
    (hconfl : (analyze_changes tm w).conflicts ≠ []) :
    (updateRun tm dry false preserveC ri now acfv w).2 = w
    ∧ (updateRun tm dry false preserveC ri now acfv w).1.success = false
    ∧ (updateRun tm dry false preserveC ri now acfv w).1.files_updated = [] := by
  have hnu := analyze_needs_of_updateAvailable tm w hstatus
  simp only [updateRun, hstatus, hnu]
  simp [hconfl]

/-- Witness for C1 at the single-template fixture with a changed template and
a non-empty customization override. -/
theorem C1_conflict_gating_witness :
    ((analyze_changes fixTmX fixWX).status = UStatus.updateAvailable
      ∧ (analyze_changes fixTmX fixWX).conflicts ≠ [])
    ∧ ((updateRun fixTmX false false true fixRi fixNow fixAcfv fixWX).2 = fixWX
      ∧ (updateRun fixTmX false false true fixRi fixNow fixAcfv fixWX).1.success = false
      ∧ (updateRun fixTmX false false true fixRi fixNow fixAcfv fixWX).1.files_updated = []) :=
  ⟨⟨by decide, by decide⟩,
    C1_conflict_gating fixTmX false true fixRi fixNow fixAcfv fixWX (by decide) (by decide)⟩

/-- C2 amended: dry runs of init and update perform no filesystem writes, no
directory creations and no state-file writes (the returned world is exactly
the input world), and update reports the same files_updated set as the
identical wet call; init reports the same files_created set as the identical
wet call except for the two state entries .acf/ and .acf/state.json, which
only the wet run appends (outside the existing-configuration guard the wet
list is .acf/ followed by the dry list followed by .acf/state.json; under the
guard both lists are equal and empty). -/
theorem C2_amended_dry_run_purity (tm : TemplateManager) (force preserveC : Bool)
    (ri : RepoInfo) (now acfv : Str) (w : World) :
    (initRun tm force true ri now acfv w).2 = w
    ∧ (updateRun tm true force preserveC ri now acfv w).2 = w
    ∧ (updateRun tm true force preserveC ri now acfv w).1.files_updated
        = (updateRun tm false force preserveC ri now acfv w).1.files_updated
    ∧ ((initRun tm force true ri now acfv w).1.files_created
          = (initRun tm force false ri now acfv w).1.files_created
       ∨ (".acf/").data :: ((initRun tm force true ri now acfv w).1.files_created
            ++ [(".acf/state.json").data])
          = (initRun tm force false ri now acfv w).1.files_created) := by
  refine ⟨initRun_dry_world tm force ri now acfv w,
    updateRun_dry_world tm force preserveC ri now acfv w,
    updateRun_files_updated_dry_eq_wet tm force preserveC ri now acfv w, ?_⟩
  by_cases hg : ((dirExists w acfDirStr || dirExists w claudeDirStr) && !force) = true
  · left
    simp only [initRun, hg, if_true]
  · right
    simp only [Bool.not_eq_true] at hg
    simp only [initRun, hg, Bool.false_eq_true, if_false, if_true]
    rw [deploy_templates_result_eq tm (prepare_parameters ri now acfv) true false
      w (mkdirp w acfDirStr)]
    simp

/- ----------------------------------------------------------------------
C10 and its support: the deployment pass writes only mapped catalog
destinations and never touches customization files.
---------------------------------------------------------------------- -/

theorem leadsWith_append_left :
    ∀ (pat a b : Str), leadsWith pat a = true → leadsWith pat (a ++ b) = true := by
  intro pat
  induction pat with
  | nil => intro a b _; rfl
  | cons p ps ih =>
    intro a b h
    cases a with
    | nil => simp [leadsWith] at h
    | cons c a2 =>
      simp only [leadsWith, Bool.and_eq_true] at h
      simp only [List.cons_append, leadsWith, Bool.and_eq_true]
      exact ⟨h.1, ih a2 b h.2⟩

theorem occursIn_nil_pat : ∀ s : Str, occursIn [] s = true := by
  intro s
  cases s <;> simp [occursIn, leadsWith]

theorem occursIn_append_left :
    ∀ (pat a b : Str), occursIn pat a = true → occursIn pat (a ++ b) = true := by
  intro pat a
  induction a with
  | nil =>
    intro b h
    simp only [occursIn] at h
    cases pat with
    | nil => exact occursIn_nil_pat b
    | cons p ps => simp [leadsWith] at h
  | cons c a2 ih =>
    intro b h
    simp only [occursIn, Bool.or_eq_true] at h
    simp only [List.cons_append, occursIn, Bool.or_eq_true]
    cases h with
    | inl h =>
      left
      have := leadsWith_append_left pat (c :: a2) b h
      simpa using this
    | inr h => exact Or.inr (ih b h)

theorem occursIn_take (pat : Str) (n : Nat) (l : Str)
    (h : occursIn pat (List.take n l) = true) : occursIn pat l = true := by
  have := occursIn_append_left pat (List.take n l) (List.drop n l) h
  rwa [List.take_append_drop] at this

theorem occursIn_claudeSlash (s : Str) :
    occursIn localDotMark (claudeDirStr ++ '/' :: s) = occursIn localDotMark s := rfl

theorem mapped_no_local (t : Str) (h : occursIn localDotMark t = false) :
    occursIn localDotMark (map_template_to_target t claudeDirStr) = false := by
  unfold map_template_to_target
  split
  · rfl
  · rw [occursIn_claudeSlash]
    unfold stripTemplateSuffix
    split
    · cases hq : occursIn localDotMark (List.take (t.length - 9) t) with
      | false => rfl
      | true =>
        have h2 := occursIn_take localDotMark (t.length - 9) t hq
        rw [h2] at h
        simp at h
    · exact h

theorem assocFind_map_overwrite (p c q : Str) (hne : q ≠ p) :
    ∀ files : List (Str × Str),
      assocFind (files.map (fun e => if e.1 = p then (p, c) else e)) q
        = assocFind files q := by
  intro files
  induction files with
  | nil => rfl
  | cons e rest ih =>
    obtain ⟨k, v⟩ := e
    rw [List.map_cons]
    simp only []
    by_cases hk : k = p
    · subst hk
      rw [if_pos (show ((k, v) : Str × Str).1 = k from rfl)]
      have hpq : ¬ (k = q) := fun hq => hne hq.symm
      simp only [assocFind, hpq, if_false]
      exact ih
    · rw [if_neg (show ¬ ((k, v) : Str × Str).1 = p from hk)]
      by_cases hkq : k = q
      · subst hkq
        simp [assocFind]
      · simp only [assocFind, hkq, if_false]
        exact ih

theorem assocFind_append_single (p c q : Str) (hne : q ≠ p) :
    ∀ files : List (Str × Str), assocFind (files ++ [(p, c)]) q = assocFind files q := by
  intro files
  induction files with
  | nil =>
    have hpq : ¬ (p = q) := fun hq => hne hq.symm
    simp [assocFind, hpq]
  | cons e rest ih =>
    obtain ⟨k, v⟩ := e
    by_cases hkq : k = q
    · subst hkq
      simp [assocFind]
    · simp [assocFind, hkq, ih]

theorem assocFind_fsWrite_ne (files : List (Str × Str)) (p c q : Str) (hne : q ≠ p) :
    assocFind (fsWrite files p c) q = assocFind files q := by
  unfold fsWrite
  split
  · exact assocFind_map_overwrite p c q hne files
  · exact assocFind_append_single p c q hne files

theorem deployStep_world_effect (tm : TemplateManager) (params : List (Str × Option Str))
    (dry : Bool) (res : DeployResult) (subs : List Str) (w : World) (tp : Str)
    (hmapt : occursIn localDotMark (map_template_to_target tp claudeDirStr) = false) :
    (∀ f, occursIn localDotMark f = true →
      assocFind ((deployStep tm params dry (res, subs, w) tp).2.2).files f
        = assocFind w.files f)
    ∧ (∀ q, q ∈ ((deployStep tm params dry (res, subs, w) tp).2.2).writeLog →
        q ∈ w.writeLog ∨ q = map_template_to_target tp claudeDirStr) := by
  cases h : get_template_content tm tp with
  | none =>
    simp only [deployStep, h]
    exact ⟨fun f _ => by trivial, fun q hq => Or.inl hq⟩
  | some content =>
    cases h2 : substitute_content params subs content with
    | error s2 =>
      simp only [deployStep, h, h2]
      exact ⟨fun f _ => by trivial, fun q hq => Or.inl hq⟩
    | ok pr =>
      obtain ⟨processed, subs2⟩ := pr
      simp only [deployStep, h, h2]
      cases dry with
      | true =>
        simp only [if_true]
        exact ⟨fun f _ => by trivial, fun q hq => Or.inl hq⟩
      | false =>
        simp only [Bool.false_eq_true, if_false]
        constructor
        · intro f hf
          show assocFind
              (fsWrite w.files (map_template_to_target tp claudeDirStr) processed) f
            = assocFind w.files f
          apply assocFind_fsWrite_ne
          intro hfe
          rw [hfe, hmapt] at hf
          simp at hf
        · intro q hq
          have hq2 : q ∈ w.writeLog ++ [map_template_to_target tp claudeDirStr] := hq
          rcases List.mem_append.mp hq2 with h1 | h1
          · exact Or.inl h1
          · exact Or.inr (List.mem_singleton.mp h1)

theorem deployFold_local (tm : TemplateManager) (params : List (Str × Option Str))
    (dry : Bool) :
    ∀ (tps : List Str) (res : DeployResult) (subs : List Str) (w : World),
      (∀ tp ∈ tps, occursIn localDotMark (map_template_to_target tp claudeDirStr) = false) →
      (∀ f, occursIn localDotMark f = true →
        assocFind ((tps.foldl (deployStep tm params dry) (res, subs, w)).2.2).files f
          = assocFind w.files f)
      ∧ (∀ q, q ∈ ((tps.foldl (deployStep tm params dry) (res, subs, w)).2.2).writeLog →
          q ∈ w.writeLog ∨ ∃ tp, tp ∈ tps ∧ q = map_template_to_target tp claudeDirStr) := by
  intro tps
  induction tps with
  | nil =>
    intro res subs w _
    exact ⟨fun f _ => by trivial, fun q hq => Or.inl hq⟩
  | cons tp rest ih =>
    intro res subs w hmap
    simp only [List.foldl_cons]
    have hmapt : occursIn localDotMark (map_template_to_target tp claudeDirStr) = false :=
      hmap tp (List.mem_cons_self tp rest)
    obtain ⟨hstepA, hstepB⟩ := deployStep_world_effect tm params dry res subs w tp hmapt
    have e1 : deployStep tm params dry (res, subs, w) tp
        = ((deployStep tm params dry (res, subs, w) tp).1,
           (deployStep tm params dry (res, subs, w) tp).2.1,
           (deployStep tm params dry (res, subs, w) tp).2.2) := rfl
    rw [e1]
    obtain ⟨ihA, ihB⟩ := ih (deployStep tm params dry (res, subs, w) tp).1
      (deployStep tm params dry (res, subs, w) tp).2.1
      (deployStep tm params dry (res, subs, w) tp).2.2
      (fun t ht => hmap t (List.mem_cons_of_mem tp ht))
    constructor
    · intro f hf
      rw [ihA f hf]
      exact hstepA f hf
    · intro q hq
      rcases ihB q hq with h1 | ⟨t, ht, he⟩
      · rcases hstepB q h1 with h2 | h2
        · exact Or.inl h2
        · exact Or.inr ⟨tp, List.mem_cons_self tp rest, h2⟩
      · exact Or.inr ⟨t, List.mem_cons_of_mem tp ht, he⟩

/-- C10: provided no template path in the catalog contains the dot-local-dot
customization marker, a deployment pass (dry or wet) leaves every file whose
path carries the marker exactly as it was (same lookup result, so neither
overwritten nor deleted), and every write it logs is the mapped destination
of some catalog template path. -/
theorem C10_deploy_preserves_customizations (tm : TemplateManager)
    (params : List (Str × Option Str)) (dry : Bool) (w : World)
    (hcat : ∀ e ∈ tm.catalog, occursIn localDotMark e.1 = false) :
    (∀ f, occursIn localDotMark f = true →
      assocFind (deploy_templates tm params dry w).2.files f = assocFind w.files f)
    ∧ (∀ q, q ∈ (deploy_templates tm params dry w).2.writeLog →
        q ∈ w.writeLog ∨ ∃ tp, tp ∈ list_template_files tm
          ∧ q = map_template_to_target tp claudeDirStr) := by
  have hmap : ∀ tp ∈ list_template_files tm,
      occursIn localDotMark (map_template_to_target tp claudeDirStr) = false := by
    intro tp htp
    rcases List.mem_map.mp htp with ⟨e, he, hfst⟩
    exact mapped_no_local tp (hfst ▸ hcat e he)
  unfold deploy_templates
  have hw0files : (if dry then w else
      mkdirp (mkdirp (mkdirp (mkdirp w claudeDirStr)
        (claudeDirStr ++ ("/agents/foundation").data))
        (claudeDirStr ++ ("/agents/specialists").data))
        (claudeDirStr ++ ("/commands").data)).files = w.files := by
    cases dry <;> rfl
  have hw0log : (if dry then w else
      mkdirp (mkdirp (mkdirp (mkdirp w claudeDirStr)
        (claudeDirStr ++ ("/agents/foundation").data))
        (claudeDirStr ++ ("/agents/specialists").data))
        (claudeDirStr ++ ("/commands").data)).writeLog = w.writeLog := by
    cases dry <;> rfl
  obtain ⟨hA, hB⟩ := deployFold_local tm params dry (list_template_files tm)
    { files_deployed := [], errors := [], parameters_substituted := [], deployed_files := [] }
    [] _ hmap
  constructor
  · intro f hf
    have := hA f hf
    rw [hw0files] at this
    exact this
  · intro q hq
    have := hB q hq
    rw [hw0log] at this
    exact this

/-- Witness for C10 at the single-template fixture whose world carries a
customization file. -/
theorem C10_deploy_preserves_customizations_witness :
    (∀ e ∈ fixTmX.catalog, occursIn localDotMark e.1 = false)
    ∧ ((∀ f, occursIn localDotMark f = true →
        assocFind (deploy_templates fixTmX (prepare_parameters fixRi fixNow fixAcfv)
          false fixWX).2.files f = assocFind fixWX.files f)
      ∧ (∀ q, q ∈ (deploy_templates fixTmX (prepare_parameters fixRi fixNow fixAcfv)
            false fixWX).2.writeLog →
          q ∈ fixWX.writeLog ∨ ∃ tp, tp ∈ list_template_files fixTmX
            ∧ q = map_template_to_target tp claudeDirStr)) :=
  ⟨by decide, C10_deploy_preserves_customizations fixTmX
    (prepare_parameters fixRi fixNow fixAcfv) false fixWX (by decide)⟩

/- ----------------------------------------------------------------------
C9 and its support: a single changed template content changes the bundle
checksum and is classified as exactly the one updated template.
---------------------------------------------------------------------- -/

theorem assocFind_nil {α : Type} (q : Str) : assocFind ([] : List (Str × α)) q = none := rfl

theorem assocFind_cons {α : Type} (k : Str) (v : α) (rest : List (Str × α)) (q : Str) :
    assocFind ((k, v) :: rest) q = if k = q then some v else assocFind rest q := rfl

theorem assocFind_some_of_mem_fst :
    ∀ (L : List (Str × Str)) (q : Str), q ∈ L.map Prod.fst → ∃ v, assocFind L q = some v := by
  intro L
  induction L with
  | nil => intro q hq; simp at hq
  | cons e rest ih =>
    intro q hq
    obtain ⟨k, v⟩ := e
    by_cases hkq : k = q
    · exact ⟨v, by rw [assocFind_cons, if_pos hkq]⟩
    · rcases List.mem_map.mp hq with ⟨e2, he2, hf⟩
      rcases List.mem_cons.mp he2 with h1 | h1
      · rw [h1] at hf
        exact absurd hf hkq
      · obtain ⟨v2, hv2⟩ := ih q (List.mem_map.mpr ⟨e2, h1, hf⟩)
        exact ⟨v2, by rw [assocFind_cons, if_neg hkq]; exact hv2⟩

theorem assocFind_append_some {α : Type} (L1 L2 : List (Str × α)) (q : Str) (v : α)
    (h : assocFind L1 q = some v) : assocFind (L1 ++ L2) q = some v := by
  induction L1 with
  | nil => simp [assocFind] at h
  | cons e rest ih =>
    obtain ⟨k, v2⟩ := e
    rw [List.cons_append, assocFind_cons]
    rw [assocFind_cons] at h
    by_cases hkq : k = q
    · rw [if_pos hkq] at h ⊢
      exact h
    · rw [if_neg hkq] at h ⊢
      exact ih h

theorem assocFind_append_not_mem {α : Type} (L1 L2 : List (Str × α)) (q : Str)
    (h : q ∉ L1.map Prod.fst) : assocFind (L1 ++ L2) q = assocFind L2 q := by
  induction L1 with
  | nil => rfl
  | cons e rest ih =>
    obtain ⟨k, v⟩ := e
    have hkq : ¬ (k = q) := by
      intro he
      exact h (List.mem_map.mpr ⟨(k, v), List.mem_cons_self _ _, he⟩)
    rw [List.cons_append, assocFind_cons, if_neg hkq]
    exact ih (fun hm => h (List.mem_cons_of_mem _ hm))

theorem assocFind_aggregate (L : List (Str × Str)) (q : Str) :
    assocFind (aggregateOfFiles L) q = (assocFind L q).map some := by
  induction L with
  | nil => rfl
  | cons e rest ih =>
    obtain ⟨k, v⟩ := e
    show assocFind ((k, some v) :: aggregateOfFiles rest) q = _
    rw [assocFind_cons, assocFind_cons]
    by_cases hkq : k = q
    · rw [if_pos hkq, if_pos hkq]
      rfl
    · rw [if_neg hkq, if_neg hkq]
      exact ih

theorem map_fst_aggregate (L : List (Str × Str)) :
    (aggregateOfFiles L).map Prod.fst = L.map Prod.fst := by
  induction L with
  | nil => rfl
  | cons e rest ih =>
    obtain ⟨k, v⟩ := e
    simpa [aggregateOfFiles] using ih

theorem get_template_content_aggregate (tm : TemplateManager) (L : List (Str × Str))
    (hcat : tm.catalog = aggregateOfFiles L) (q : Str) :
    get_template_content tm q = assocFind L q := by
  unfold get_template_content
  rw [hcat, assocFind_aggregate]
  cases assocFind L q <;> rfl

theorem get_template_info_aggregate (tm : TemplateManager) (L : List (Str × Str))
    (hcat : tm.catalog = aggregateOfFiles L) (q : Str) :
    get_template_info tm q = assocFind L q := by
  unfold get_template_info fileChecksum
  rw [get_template_content_aggregate tm L hcat]
  cases assocFind L q <;> rfl

theorem bundle_eq_catalog (tm : TemplateManager) :
    calculate_bundle_checksum tm = tm.catalog := by
  unfold calculate_bundle_checksum fileChecksum
  have hpc : ∀ pc : Str × Option Str, (pc.1, pc.2.map (fun content => content)) = pc := by
    intro pc
    obtain ⟨a, b⟩ := pc
    cases b <;> rfl
  simp only [hpc, List.map_id']

theorem list_template_files_aggregate (tm : TemplateManager) (L : List (Str × Str))
    (hcat : tm.catalog = aggregateOfFiles L) :
    list_template_files tm = L.map Prod.fst := by
  unfold list_template_files
  rw [hcat, map_fst_aggregate]

theorem analyze_changes_main_proj (tm2 : TemplateManager) (w : World) (st : ACFState)
    (inst : InstallationState) (tstate : TemplatesState)
    (hst : w.state = some st) (hinst : st.installation = some inst)
    (htpl : st.templates = some tstate)
    (hnecheck : tstate.checksum ≠ calculate_bundle_checksum tm2) :
    (analyze_changes tm2 w).status = UStatus.updateAvailable
    ∧ (analyze_changes tm2 w).new_templates
        = (list_template_files tm2).filter
            (fun q => !((tstate.files.map Prod.fst).contains q))
    ∧ (analyze_changes tm2 w).updated_templates
        = (list_template_files tm2).filter (fun q =>
            (tstate.files.map Prod.fst).contains q &&
              match get_template_info tm2 q, assocFind tstate.files q with
              | some avail, some cur => !(cur == avail)
              | _, _ => false)
    ∧ (analyze_changes tm2 w).removed_templates
        = (tstate.files.map Prod.fst).filter
            (fun q => !((list_template_files tm2).contains q)) := by
  have hc : (some tstate.checksum = some (calculate_bundle_checksum tm2)) = False := by
    simp [hnecheck]
  simp only [analyze_changes, load_state, hst, Option.getD, hinst, htpl, Option.map,
    hc, if_false]
  exact ⟨by trivial, by trivial, by trivial, by trivial⟩

theorem filter_single (F : Str → Bool) (A B : List Str) (p : Str)
    (hA : ∀ q ∈ A, F q = false) (hp : F p = true) (hB : ∀ q ∈ B, F q = false) :
    List.filter F (A ++ p :: B) = [p] := by
  rw [List.filter_append, List.filter_cons]
  rw [List.filter_eq_nil_iff.mpr (fun q hq => by simp [hA q hq]),
      List.filter_eq_nil_iff.mpr (fun q hq => by simp [hB q hq])]
  simp [hp]

/-- C9: starting from a state recorded by a successful deploy of a bundle, if
exactly one template path's content (hence per-file checksum) differs in the
now-available bundle and everything else is unchanged, the aggregate bundle
checksums differ, the next analysis reports update_available, classifies
exactly that one path as updated, and classifies no path as new or removed. -/
theorem C9_single_content_change (tm tm2 : TemplateManager) (pre post : List (Str × Str))
    (p c c2 : Str) (st : ACFState) (inst : InstallationState) (w : World)
    (hcat : tm.catalog = aggregateOfFiles (pre ++ (p, c) :: post))
    (hcat2 : tm2.catalog = aggregateOfFiles (pre ++ (p, c2) :: post))
    (hne : c ≠ c2)
    (hnd : ((pre ++ (p, c) :: post).map Prod.fst).Nodup)
    (hst : w.state = some st)
    (hinst : st.installation = some inst)
    (htpl : st.templates = some { checksum := calculate_bundle_checksum tm,
                                  files := pre ++ (p, c) :: post }) :
    calculate_bundle_checksum tm ≠ calculate_bundle_checksum tm2
    ∧ (analyze_changes tm2 w).status = UStatus.updateAvailable
    ∧ (analyze_changes tm2 w).updated_templates = [p]
    ∧ (analyze_changes tm2 w).new_templates = []
    ∧ (analyze_changes tm2 w).removed_templates = [] := by
  have hneB : calculate_bundle_checksum tm ≠ calculate_bundle_checksum tm2 := by
    rw [bundle_eq_catalog, bundle_eq_catalog, hcat, hcat2]
    unfold aggregateOfFiles
    simp only [List.map_append, List.map_cons]
    intro h
    have h2 := List.append_cancel_left h
    simp only [List.cons.injEq, Prod.mk.injEq, Option.some.injEq] at h2
    exact hne h2.1.2
  have hnd2 := hnd
  rw [List.map_append, List.map_cons] at hnd2
  obtain ⟨ndpre, ndcons, disj⟩ := List.nodup_append.mp hnd2
  have hp_pre : p ∉ pre.map Prod.fst := fun hm => disj hm (List.mem_cons_self _ _)
  have hp_post : p ∉ post.map Prod.fst := (List.nodup_cons.mp ndcons).1
  have hfind1p : assocFind (pre ++ (p, c) :: post) p = some c := by
    rw [assocFind_append_not_mem _ _ p hp_pre, assocFind_cons, if_pos rfl]
  have hfind2p : assocFind (pre ++ (p, c2) :: post) p = some c2 := by
    rw [assocFind_append_not_mem _ _ p hp_pre, assocFind_cons, if_pos rfl]
  obtain ⟨hs, hnew, hupd, hrem⟩ := analyze_changes_main_proj tm2 w st inst
    { checksum := calculate_bundle_checksum tm, files := pre ++ (p, c) :: post }
    hst hinst htpl hneB
  have havail : list_template_files tm2 = pre.map Prod.fst ++ p :: post.map Prod.fst := by
    rw [list_template_files_aggregate tm2 _ hcat2]
    simp [List.map_append]
  have hpaths : ((pre ++ (p, c) :: post).map Prod.fst)
      = pre.map Prod.fst ++ p :: post.map Prod.fst := by
    simp [List.map_append]
  refine ⟨hneB, hs, ?_, ?_, ?_⟩
  · -- updated_templates = [p]
    rw [hupd, havail]
    have hApre : ∀ q ∈ pre.map Prod.fst,
        (((pre ++ (p, c) :: post).map Prod.fst).contains q &&
          (match get_template_info tm2 q, assocFind (pre ++ (p, c) :: post) q with
            | some avail, some cur => !(cur == avail)
            | _, _ => false)) = false := by
      intro q hq
      obtain ⟨v, hv⟩ := assocFind_some_of_mem_fst pre q hq
      have hinfo : get_template_info tm2 q = some v := by
        rw [get_template_info_aggregate tm2 _ hcat2]
        exact assocFind_append_some pre _ q v hv
      have hcur : assocFind (pre ++ (p, c) :: post) q = some v :=
        assocFind_append_some pre _ q v hv
      rw [hinfo, hcur]
      simp
    have hfp : (((pre ++ (p, c) :: post).map Prod.fst).contains p &&
        (match get_template_info tm2 p, assocFind (pre ++ (p, c) :: post) p with
          | some avail, some cur => !(cur == avail)
          | _, _ => false)) = true := by
      have hmem : p ∈ (pre ++ (p, c) :: post).map Prod.fst := by
        rw [hpaths]
        exact List.mem_append_right _ (List.mem_cons_self _ _)
      have hinfo : get_template_info tm2 p = some c2 := by
        rw [get_template_info_aggregate tm2 _ hcat2, hfind2p]
      rw [hinfo, hfind1p]
      simp [hmem, beq_eq_false_iff_ne.mpr hne]
    have hBpost : ∀ q ∈ post.map Prod.fst,
        (((pre ++ (p, c) :: post).map Prod.fst).contains q &&
          (match get_template_info tm2 q, assocFind (pre ++ (p, c) :: post) q with
            | some avail, some cur => !(cur == avail)
            | _, _ => false)) = false := by
      intro q hq
      have hq_pre : q ∉ pre.map Prod.fst :=
        fun hm => disj hm (List.mem_cons_of_mem _ hq)
      have hq_ne_p : ¬ (p = q) := by
        intro he
        exact hp_post (he ▸ hq)
      have hcur : assocFind (pre ++ (p, c) :: post) q = assocFind post q := by
        rw [assocFind_append_not_mem _ _ q hq_pre, assocFind_cons, if_neg hq_ne_p]
      have hinfo : get_template_info tm2 q = assocFind post q := by
        rw [get_template_info_aggregate tm2 _ hcat2,
          assocFind_append_not_mem _ _ q hq_pre, assocFind_cons, if_neg hq_ne_p]
      rw [hinfo, hcur]
      cases hpost : assocFind post q with
      | none => simp
      | some v => simp
    exact filter_single _ (pre.map Prod.fst) (post.map Prod.fst) p hApre hfp hBpost
  · -- new_templates = []
    rw [hnew]
    apply List.filter_eq_nil_iff.mpr
    intro q hq hcontra
    have hqmem : q ∈ (pre ++ (p, c) :: post).map Prod.fst := by
      rw [hpaths]
      rw [havail] at hq
      exact hq
    have hcq : ((pre ++ (p, c) :: post).map Prod.fst).contains q = true :=
      List.elem_eq_true_of_mem hqmem
    have hcontra2 : (!((pre ++ (p, c) :: post).map Prod.fst).contains q) = true := hcontra
    rw [hcq] at hcontra2
    simp at hcontra2
  · -- removed_templates = []
    rw [hrem]
    apply List.filter_eq_nil_iff.mpr
    intro q hq hcontra
    have hq2 : q ∈ (pre ++ (p, c) :: post).map Prod.fst := hq
    have hqmem : q ∈ list_template_files tm2 := by
      rw [havail]
      rw [hpaths] at hq2
      exact hq2
    have hcq : (list_template_files tm2).contains q = true :=
      List.elem_eq_true_of_mem hqmem
    have hcontra2 : (!(list_template_files tm2).contains q) = true := hcontra
    rw [hcq] at hcontra2
    simp at hcontra2

/-- Witness for C9 at the one-template catalog changing from old to new. -/
theorem C9_single_content_change_witness :
    (fixTmXold.catalog
        = aggregateOfFiles ([] ++ (("x.md").data, ("old").data) :: [])
      ∧ fixTmX.catalog
        = aggregateOfFiles ([] ++ (("x.md").data, ("new").data) :: [])
      ∧ ("old").data ≠ ("new").data
      ∧ (([] ++ (("x.md").data, ("old").data) :: []).map Prod.fst).Nodup
      ∧ fixWX.state = some fixStX
      ∧ fixStX.installation = some
          { template_version := [], installed_at := ("t0").data, cli_version := ("1").data }
      ∧ fixStX.templates = some
          { checksum := calculate_bundle_checksum fixTmXold,
            files := [] ++ (("x.md").data, ("old").data) :: [] })
    ∧ (calculate_bundle_checksum fixTmXold ≠ calculate_bundle_checksum fixTmX
      ∧ (analyze_changes fixTmX fixWX).status = UStatus.updateAvailable
      ∧ (analyze_changes fixTmX fixWX).updated_templates = [("x.md").data]
      ∧ (analyze_changes fixTmX fixWX).new_templates = []
      ∧ (analyze_changes fixTmX fixWX).removed_templates = []) :=
  ⟨⟨by decide, by decide, by decide, by decide, by decide, by decide, by decide⟩,
   C9_single_content_change fixTmXold fixTmX [] [] (("x.md").data) (("old").data)
     (("new").data) fixStX
     { template_version := [], installed_at := ("t0").data, cli_version := ("1").data }
     fixWX (by decide) (by decide) (by decide) (by decide) (by decide) (by decide)
     (by decide)⟩

/- ----------------------------------------------------------------------
C6 support, part 1: token recognition on rendered segment lists.
---------------------------------------------------------------------- -/

theorem isNameChar_ne_lbrace {c : Char} (h : isNameChar c = true) : c ≠ '{' := by
  intro he
  rw [he] at h
  exact absurd h (by decide)

theorem isNameChar_ne_rbrace {c : Char} (h : isNameChar c = true) : c ≠ '}' := by
  intro he
  rw [he] at h
  exact absurd h (by decide)

theorem braceFree_head {c : Char} {s : Str} (h : braceFree (c :: s) = true) :
    c ≠ '{' ∧ c ≠ '}' ∧ braceFree s = true := by
  simp only [braceFree, List.all_cons, Bool.and_eq_true, Bool.not_eq_true] at h
  refine ⟨?_, ?_, h.2⟩
  · intro he
    rw [he] at h
    simp at h
  · intro he
    rw [he] at h
    simp at h

theorem tokenHead_not_lbrace {c : Char} (hc : c ≠ '{') (cs : Str) :
    tokenHead (c :: cs) = none := by
  cases cs with
  | nil => rfl
  | cons c2 r =>
    show (if c = '{' ∧ c2 = '{' then _ else none) = none
    rw [if_neg (fun h => hc h.1)]

theorem takeWhile_name_append (n : Str) (hall : n.all isNameChar = true)
    (d : Char) (hd : isNameChar d = false) (rest : Str) :
    (n ++ d :: rest).takeWhile isNameChar = n
    ∧ (n ++ d :: rest).dropWhile isNameChar = d :: rest := by
  induction n with
  | nil =>
    simp only [List.nil_append, List.takeWhile_cons, List.dropWhile_cons, hd]
    exact ⟨rfl, rfl⟩
  | cons a n2 ih =>
    simp only [List.all_cons, Bool.and_eq_true] at hall
    obtain ⟨ih1, ih2⟩ := ih hall.2
    simp only [List.cons_append, List.takeWhile_cons, List.dropWhile_cons, hall.1]
    rw [ih1, ih2]
    exact ⟨rfl, rfl⟩

theorem tokenHead_tok (n : Str) (hne : n ≠ []) (hall : n.all isNameChar = true)
    (x : Str) :
    tokenHead ('{' :: '{' :: (n ++ '}' :: '}' :: x)) = some (n, x) := by
  obtain ⟨htake, hdrop⟩ := takeWhile_name_append n hall '}' (by decide) ('}' :: x)
  show (if '{' = '{' ∧ '{' = '{' then
      match (n ++ '}' :: '}' :: x).dropWhile isNameChar with
      | d1 :: d2 :: r2 =>
        if d1 = '}' ∧ d2 = '}' ∧ (n ++ '}' :: '}' :: x).takeWhile isNameChar ≠ [] then
          some ((n ++ '}' :: '}' :: x).takeWhile isNameChar, r2)
        else none
      | _ => none
    else none) = some (n, x)
  rw [if_pos ⟨rfl, rfl⟩, hdrop, htake]
  show (if ('}' : Char) = '}' ∧ ('}' : Char) = '}' ∧ n ≠ [] then some (n, x) else none)
    = some (n, x)
  rw [if_pos ⟨rfl, rfl, hne⟩]

theorem findTokens_cons_none {c : Char} {cs : Str} (h : tokenHead (c :: cs) = none) :
    findTokens (c :: cs) = findTokens cs := by
  rw [findTokens_cons, h]

theorem findTokens_cons_some {c : Char} {cs n r : Str}
    (h : tokenHead (c :: cs) = some (n, r)) :
    findTokens (c :: cs) = n :: findTokens r := by
  rw [findTokens_cons, h]

theorem specSubstitute_cons_none (params : List (Str × Str)) {c : Char} {cs : Str}
    (h : tokenHead (c :: cs) = none) :
    specSubstitute params (c :: cs) = c :: specSubstitute params cs := by
  rw [specSubstitute_cons, h]

theorem specSubstitute_cons_some (params : List (Str × Str)) {c : Char} {cs n r : Str}
    (h : tokenHead (c :: cs) = some (n, r)) :
    specSubstitute params (c :: cs)
      = (match assocFind params n with
         | some v => v ++ specSubstitute params r
         | none => tokStr n ++ specSubstitute params r) := by
  rw [specSubstitute_cons, h]

theorem replaceAll_cons_neg {pat : Str} (v : Str) {c : Char} {cs : Str}
    (h : leadsWith pat (c :: cs) = false) :
    replaceAll pat v (c :: cs) = c :: replaceAll pat v cs := by
  rw [replaceAll_cons, h]
  simp

theorem replaceAll_cons_pos {pat : Str} (v : Str) {c : Char} {cs : Str}
    (h : leadsWith pat (c :: cs) = true) (hp : pat ≠ []) :
    replaceAll pat v (c :: cs) = v ++ replaceAll pat v (List.drop pat.length (c :: cs)) := by
  rw [replaceAll_cons, h]
  cases pat with
  | nil => exact absurd rfl hp
  | cons a ps => simp [List.isEmpty]

theorem render_cons (sg : Seg) (l : List Seg) :
    render (sg :: l) = renderSeg sg ++ render l := by
  simp [render]

theorem render_tok_cons (n : Str) (l : List Seg) :
    render (.tok n :: l) = '{' :: '{' :: (n ++ '}' :: '}' :: render l) := by
  simp [render_cons, renderSeg, tokStr]

theorem render_plain_cons (c : Char) (s : Str) (l : List Seg) :
    render (.plain (c :: s) :: l) = c :: render (.plain s :: l) := by
  simp [render_cons, renderSeg]

theorem render_plain_nil_cons (l : List Seg) :
    render (.plain [] :: l) = render l := by
  simp [render_cons, renderSeg]

theorem SegsOK_cons {sg : Seg} {l : List Seg} (h : SegsOK (sg :: l) = true) :
    SegOK sg = true ∧ SegsOK l = true := by
  simp only [SegsOK, List.all_cons, Bool.and_eq_true] at h
  exact h

/- ----------------------------------------------------------------------
C6 support, part 2: the scanner and the simultaneous substitution on
rendered segment lists.
---------------------------------------------------------------------- -/

theorem SegOK_tok_parts {n : Str} (h : SegOK (.tok n) = true) :
    n ≠ [] ∧ n.all isNameChar = true := by
  simp only [SegOK, Bool.and_eq_true] at h
  refine ⟨?_, h.2⟩
  cases n with
  | nil => simp [List.isEmpty] at h
  | cons a l => simp

theorem render_tok_len (n : Str) (l : List Seg) :
    (render (.tok n :: l)).length = (render l).length + n.length + 4 := by
  rw [render_tok_cons]
  simp [List.length_append]
  omega

theorem findTokens_render_bound :
    ∀ (k : Nat) (segs : List Seg), (render segs).length + segs.length ≤ k →
      SegsOK segs = true → findTokens (render segs) = tokNames segs := by
  intro k
  induction k with
  | zero =>
    intro segs hm _
    cases segs with
    | nil => rfl
    | cons a l => simp at hm
  | succ k ih =>
    intro segs hm hok
    cases segs with
    | nil => rfl
    | cons sg l =>
      obtain ⟨hsg, hl⟩ := SegsOK_cons hok
      cases sg with
      | plain s =>
        cases s with
        | nil =>
          rw [render_plain_nil_cons]
          have hm2 : (render l).length + l.length ≤ k := by
            rw [render_plain_nil_cons] at hm
            simp only [List.length_cons] at hm
            omega
          rw [ih l hm2 hl]
          rfl
        | cons c s2 =>
          have hbf : braceFree (c :: s2) = true := by simpa [SegOK] using hsg
          have hc := (braceFree_head hbf).1
          have hok2 : SegsOK (.plain s2 :: l) = true := by
            simp only [SegsOK, List.all_cons, Bool.and_eq_true]
            exact ⟨(braceFree_head hbf).2.2, hl⟩
          have hm2 : (render (.plain s2 :: l)).length + (Seg.plain s2 :: l).length ≤ k := by
            rw [render_plain_cons] at hm
            simp only [List.length_cons] at hm ⊢
            omega
          rw [render_plain_cons,
            findTokens_cons_none (tokenHead_not_lbrace hc (render (.plain s2 :: l))),
            ih (.plain s2 :: l) hm2 hok2]
          rfl
      | tok n =>
        obtain ⟨hn1, hn2⟩ := SegOK_tok_parts hsg
        have hm2 : (render l).length + l.length ≤ k := by
          have := render_tok_len n l
          simp only [List.length_cons] at hm
          omega
        rw [render_tok_cons,
          findTokens_cons_some (tokenHead_tok n hn1 hn2 (render l)),
          ih l hm2 hl]
        rfl

theorem findTokens_render (segs : List Seg) (hok : SegsOK segs = true) :
    findTokens (render segs) = tokNames segs :=
  findTokens_render_bound ((render segs).length + segs.length) segs le_rfl hok

theorem specSubstitute_render_bound (params : List (Str × Str)) :
    ∀ (k : Nat) (segs : List Seg), (render segs).length + segs.length ≤ k →
      SegsOK segs = true →
      specSubstitute params (render segs) = render (segs.map (fullSub params)) := by
  intro k
  induction k with
  | zero =>
    intro segs hm _
    cases segs with
    | nil => rfl
    | cons a l => simp at hm
  | succ k ih =>
    intro segs hm hok
    cases segs with
    | nil => rfl
    | cons sg l =>
      obtain ⟨hsg, hl⟩ := SegsOK_cons hok
      cases sg with
      | plain s =>
        cases s with
        | nil =>
          rw [render_plain_nil_cons]
          have hm2 : (render l).length + l.length ≤ k := by
            rw [render_plain_nil_cons] at hm
            simp only [List.length_cons] at hm
            omega
          rw [ih l hm2 hl]
          simp [List.map_cons, fullSub, render_cons, renderSeg]
        | cons c s2 =>
          have hbf : braceFree (c :: s2) = true := by simpa [SegOK] using hsg
          have hc := (braceFree_head hbf).1
          have hok2 : SegsOK (.plain s2 :: l) = true := by
            simp only [SegsOK, List.all_cons, Bool.and_eq_true]
            exact ⟨(braceFree_head hbf).2.2, hl⟩
          have hm2 : (render (.plain s2 :: l)).length + (Seg.plain s2 :: l).length ≤ k := by
            rw [render_plain_cons] at hm
            simp only [List.length_cons] at hm ⊢
            omega
          rw [render_plain_cons,
            specSubstitute_cons_none params (tokenHead_not_lbrace hc (render (.plain s2 :: l))),
            ih (.plain s2 :: l) hm2 hok2]
          simp [List.map_cons, fullSub, render_cons, renderSeg]
      | tok n =>
        obtain ⟨hn1, hn2⟩ := SegOK_tok_parts hsg
        have hm2 : (render l).length + l.length ≤ k := by
          have := render_tok_len n l
          simp only [List.length_cons] at hm
          omega
        rw [render_tok_cons,
          specSubstitute_cons_some params (tokenHead_tok n hn1 hn2 (render l))]
        cases hk : assocFind params n with
        | some v =>
          show v ++ specSubstitute params (render l) = _
          rw [ih l hm2 hl]
          simp [List.map_cons, fullSub, hk, render_cons, renderSeg]
        | none =>
          show tokStr n ++ specSubstitute params (render l) = _
          rw [ih l hm2 hl]
          simp [List.map_cons, fullSub, hk, render_cons, renderSeg]

theorem specSubstitute_render (params : List (Str × Str)) (segs : List Seg)
    (hok : SegsOK segs = true) :
    specSubstitute params (render segs) = render (segs.map (fullSub params)) :=
  specSubstitute_render_bound params ((render segs).length + segs.length) segs le_rfl hok

/- ----------------------------------------------------------------------
C6 support, part 3: one global placeholder replacement acts on a rendered
segment list exactly as the per-segment token substitution.
---------------------------------------------------------------------- -/

theorem leadsWith_self_append : ∀ (p x : Str), leadsWith p (p ++ x) = true := by
  intro p
  induction p with
  | nil => intro x; rfl
  | cons a ps ih =>
    intro x
    simp only [List.cons_append, leadsWith, Bool.and_eq_true]
    exact ⟨by simp, ih x⟩

theorem tokStr_ne_nil (n : Str) : tokStr n ≠ [] := by simp [tokStr]

theorem replaceAll_self_append {pat : Str} (v : Str) (x : Str) (hp : pat ≠ []) :
    replaceAll pat v (pat ++ x) = v ++ replaceAll pat v x := by
  cases pat with
  | nil => exact absurd rfl hp
  | cons p ps =>
    have h := leadsWith_self_append (p :: ps) x
    rw [List.cons_append] at h ⊢
    rw [replaceAll_cons_pos v h (by simp)]
    congr 1
    rw [show List.drop (p :: ps).length (p :: (ps ++ x)) = List.drop ps.length (ps ++ x)
      from rfl]
    rw [List.drop_left]

theorem leadsWith_name_ne :
    ∀ (n0 m : Str) (X Y : Str), n0.all isNameChar = true → m.all isNameChar = true →
      leadsWith (n0 ++ '}' :: '}' :: Y) (m ++ '}' :: '}' :: X) = true → n0 = m := by
  intro n0
  induction n0 with
  | nil =>
    intro m X Y _ hm h
    cases m with
    | nil => rfl
    | cons a m2 =>
      simp only [List.nil_append, List.cons_append, leadsWith, Bool.and_eq_true] at h
      have ha : isNameChar a = true := by
        simp only [List.all_cons, Bool.and_eq_true] at hm
        exact hm.1
      have : ('}' : Char) = a := by simpa using h.1
      exact absurd this.symm (isNameChar_ne_rbrace ha)
  | cons b n2 ih =>
    intro m X Y hn hm h
    cases m with
    | nil =>
      simp only [List.cons_append, List.nil_append, leadsWith, Bool.and_eq_true] at h
      have hb : isNameChar b = true := by
        simp only [List.all_cons, Bool.and_eq_true] at hn
        exact hn.1
      have : b = '}' := by simpa using h.1
      exact absurd this (isNameChar_ne_rbrace hb)
    | cons a m2 =>
      simp only [List.cons_append, leadsWith, Bool.and_eq_true] at h
      have hba : b = a := by simpa using h.1
      simp only [List.all_cons, Bool.and_eq_true] at hn hm
      have := ih m2 X Y hn.2 hm.2 h.2
      rw [hba, this]

theorem leadsWith_tok_ne {n0 m : Str} (hne : m ≠ n0) (hn0 : n0.all isNameChar = true)
    (hm : m.all isNameChar = true) (X : Str) :
    leadsWith (tokStr n0) ('{' :: '{' :: (m ++ '}' :: '}' :: X)) = false := by
  cases hLW : leadsWith (tokStr n0) ('{' :: '{' :: (m ++ '}' :: '}' :: X)) with
  | false => rfl
  | true =>
    exfalso
    simp only [tokStr, leadsWith, Bool.and_eq_true] at hLW
    have : n0 = m := leadsWith_name_ne n0 m X [] hn0 hm hLW.2.2
    exact hne this.symm

theorem replaceAll_nameRun (n0 v : Str) :
    ∀ (m : Str), m.all isNameChar = true → ∀ (X : Str),
      replaceAll (tokStr n0) v (m ++ X) = m ++ replaceAll (tokStr n0) v X := by
  intro m
  induction m with
  | nil => intro _ X; rfl
  | cons d m2 ih =>
    intro hall X
    simp only [List.all_cons, Bool.and_eq_true] at hall
    have hd : ('{' == d) = false := by
      have h2 : d ≠ '{' := isNameChar_ne_lbrace hall.1
      simp only [beq_eq_false_iff_ne, ne_eq]
      exact fun he => h2 he.symm
    have hlw : leadsWith (tokStr n0) (d :: (m2 ++ X)) = false := by
      simp [tokStr, leadsWith, hd]
    rw [List.cons_append, replaceAll_cons_neg v hlw, ih hall.2 X]
    rfl

theorem replaceAll_render_bound (n0 v : Str) (hn0 : n0 ≠ [])
    (hall0 : n0.all isNameChar = true) (hv : braceFree v = true) :
    ∀ (k : Nat) (segs : List Seg), (render segs).length + segs.length ≤ k →
      SegsOK segs = true →
      replaceAll (tokStr n0) v (render segs) = render (segs.map (substTok n0 v)) := by
  intro k
  induction k with
  | zero =>
    intro segs hm _
    cases segs with
    | nil => rfl
    | cons a l => simp at hm
  | succ k ih =>
    intro segs hm hok
    cases segs with
    | nil => rfl
    | cons sg l =>
      obtain ⟨hsg, hl⟩ := SegsOK_cons hok
      cases sg with
      | plain s =>
        cases s with
        | nil =>
          rw [render_plain_nil_cons]
          have hm2 : (render l).length + l.length ≤ k := by
            rw [render_plain_nil_cons] at hm
            simp only [List.length_cons] at hm
            omega
          rw [ih l hm2 hl]
          simp [List.map_cons, substTok, render_cons, renderSeg]
        | cons c s2 =>
          have hbf : braceFree (c :: s2) = true := by simpa [SegOK] using hsg
          have hc := (braceFree_head hbf).1
          have hok2 : SegsOK (.plain s2 :: l) = true := by
            simp only [SegsOK, List.all_cons, Bool.and_eq_true]
            exact ⟨(braceFree_head hbf).2.2, hl⟩
          have hm2 : (render (.plain s2 :: l)).length + (Seg.plain s2 :: l).length ≤ k := by
            rw [render_plain_cons] at hm
            simp only [List.length_cons] at hm ⊢
            omega
          have hlw : leadsWith (tokStr n0) (c :: render (.plain s2 :: l)) = false := by
            have : ('{' == c) = false := by
              simp only [beq_eq_false_iff_ne, ne_eq]
              intro he
              exact hc he.symm
            simp [tokStr, leadsWith, this]
          rw [render_plain_cons, replaceAll_cons_neg v hlw, ih (.plain s2 :: l) hm2 hok2]
          simp [List.map_cons, substTok, render_cons, renderSeg]
      | tok m =>
        obtain ⟨hm1, hm2a⟩ := SegOK_tok_parts hsg
        have hmeas : (render l).length + l.length ≤ k := by
          have := render_tok_len m l
          simp only [List.length_cons] at hm
          omega
        by_cases hmn : m = n0
        · subst hmn
          rw [show render (Seg.tok m :: l) = tokStr m ++ render l from by
            simp [render_cons, renderSeg]]
          rw [replaceAll_self_append v (render l) (tokStr_ne_nil m), ih l hmeas hl]
          simp [List.map_cons, substTok, render_cons, renderSeg]
        · rw [render_tok_cons]
          cases m with
          | nil => exact absurd rfl hm1
          | cons m0 m2 =>
            have hm0 : isNameChar m0 = true := by
              simp only [List.all_cons, Bool.and_eq_true] at hm2a
              exact hm2a.1
            have h0 : leadsWith (tokStr n0)
                ('{' :: '{' :: ((m0 :: m2) ++ '}' :: '}' :: render l)) = false :=
              leadsWith_tok_ne hmn hall0 hm2a (render l)
            have hm0b : ('{' == m0) = false := by
              simp only [beq_eq_false_iff_ne, ne_eq]
              intro he
              exact (isNameChar_ne_lbrace hm0) he.symm
            have h1 : leadsWith (tokStr n0)
                ('{' :: ((m0 :: m2) ++ '}' :: '}' :: render l)) = false := by
              simp [tokStr, leadsWith, hm0b]
            have h3 : leadsWith (tokStr n0) ('}' :: '}' :: render l) = false := by
              simp [tokStr, leadsWith]
            have h4 : leadsWith (tokStr n0) ('}' :: render l) = false := by
              simp [tokStr, leadsWith]
            rw [replaceAll_cons_neg v h0, replaceAll_cons_neg v h1,
              replaceAll_nameRun n0 v (m0 :: m2) hm2a ('}' :: '}' :: render l),
              replaceAll_cons_neg v h3, replaceAll_cons_neg v h4, ih l hmeas hl]
            simp [List.map_cons, substTok, hmn, render_tok_cons]

theorem replaceAll_render (n0 v : Str) (hn0 : n0 ≠ [])
    (hall0 : n0.all isNameChar = true) (hv : braceFree v = true)
    (segs : List Seg) (hok : SegsOK segs = true) :
    replaceAll (tokStr n0) v (render segs) = render (segs.map (substTok n0 v)) :=
  replaceAll_render_bound n0 v hn0 hall0 hv ((render segs).length + segs.length)
    segs le_rfl hok

/- ----------------------------------------------------------------------
C6 support, part 4: the replacement loop of substitute_content acting on a
rendered segment list, name by name.
---------------------------------------------------------------------- -/

theorem assocFind_mem {α : Type} : ∀ (L : List (Str × α)) (q : Str) (v : α),
    assocFind L q = some v → (q, v) ∈ L := by
  intro L
  induction L with
  | nil =>
    intro q v h
    cases h
  | cons pr rest ih =>
    intro q v h
    obtain ⟨k, w⟩ := pr
    have h2 : (if k = q then some w else assocFind rest q) = some v := h
    by_cases hk : k = q
    · rw [if_pos hk] at h2
      cases h2
      subst hk
      exact List.mem_cons_self _ _
    · rw [if_neg hk] at h2
      exact List.mem_cons_of_mem _ (ih q v h2)

theorem assocFind_toOpt (params : List (Str × Str)) (n : Str) :
    assocFind (toOptParams params) n = Option.map some (assocFind params n) := by
  induction params with
  | nil => rfl
  | cons pr rest ih =>
    obtain ⟨k, w⟩ := pr
    show (if k = n then some (some w) else assocFind (toOptParams rest) n) =
      Option.map some (if k = n then some w else assocFind rest n)
    by_cases hk : k = n
    · rw [if_pos hk, if_pos hk]
      rfl
    · rw [if_neg hk, if_neg hk, ih]

theorem SegsOK_map_substTok {segs : List Seg} (n0 v : Str) (hv : braceFree v = true)
    (hok : SegsOK segs = true) : SegsOK (segs.map (substTok n0 v)) = true := by
  induction segs with
  | nil => rfl
  | cons sg l ih =>
    obtain ⟨hsg, hl⟩ := SegsOK_cons hok
    simp only [List.map_cons, SegsOK, List.all_cons, Bool.and_eq_true]
    refine ⟨?_, ih hl⟩
    cases sg with
    | plain s => exact hsg
    | tok n =>
      show SegOK (if n = n0 then Seg.plain v else Seg.tok n) = true
      by_cases hn : n = n0
      · rw [if_pos hn]
        exact hv
      · rw [if_neg hn]
        exact hsg

theorem tokNames_cons_plain (s : Str) (l : List Seg) :
    tokNames (.plain s :: l) = tokNames l := rfl

theorem tokNames_cons_tok (m : Str) (l : List Seg) :
    tokNames (.tok m :: l) = m :: tokNames l := rfl

theorem mem_tokNames : ∀ {segs : List Seg} {n : Str},
    Seg.tok n ∈ segs → n ∈ tokNames segs := by
  intro segs
  induction segs with
  | nil =>
    intro n h
    cases h
  | cons sg l ih =>
    intro n h
    cases h with
    | head =>
      rw [tokNames_cons_tok]
      exact List.mem_cons_self _ _
    | tail _ h2 =>
      cases sg with
      | plain s =>
        rw [tokNames_cons_plain]
        exact ih h2
      | tok m =>
        rw [tokNames_cons_tok]
        exact List.mem_cons_of_mem _ (ih h2)

theorem tok_mem_of_mem_tokNames : ∀ {segs : List Seg} {n : Str},
    n ∈ tokNames segs → Seg.tok n ∈ segs := by
  intro segs
  induction segs with
  | nil =>
    intro n h
    cases h
  | cons sg l ih =>
    intro n h
    cases sg with
    | plain s =>
      rw [tokNames_cons_plain] at h
      exact List.mem_cons_of_mem _ (ih h)
    | tok m =>
      rw [tokNames_cons_tok] at h
      cases h with
      | head => exact List.mem_cons_self _ _
      | tail _ h2 => exact List.mem_cons_of_mem _ (ih h2)

theorem tokNames_ok {segs : List Seg} (hok : SegsOK segs = true) {n : Str}
    (h : n ∈ tokNames segs) : n ≠ [] ∧ n.all isNameChar = true := by
  have hm := tok_mem_of_mem_tokNames h
  have h2 : SegOK (.tok n) = true := List.all_eq_true.mp hok _ hm
  exact SegOK_tok_parts h2

theorem subst_fold (params : List (Str × Str))
    (hvals : ∀ pr ∈ params, braceFree pr.2 = true) :
    ∀ (names : List Str) (segs : List Seg) (subs : List Str),
      SegsOK segs = true →
      (∀ n ∈ names, n ≠ [] ∧ n.all isNameChar = true) →
      List.foldl (substStep (toOptParams params)) (.ok (render segs, subs)) names =
        .ok (render (applyNames params names segs), insKeys params names subs) := by
  intro names
  induction names with
  | nil =>
    intro segs subs _ _
    rfl
  | cons n ns ih =>
    intro segs subs hok hn
    have hn1 := hn n (List.mem_cons_self _ _)
    have hns : ∀ m ∈ ns, m ≠ [] ∧ m.all isNameChar = true :=
      fun m hm => hn m (List.mem_cons_of_mem _ hm)
    rw [List.foldl_cons]
    cases hf : assocFind params n with
    | none =>
      have hstep : substStep (toOptParams params) (.ok (render segs, subs)) n =
          .ok (render segs, subs) := by
        simp only [substStep, assocFind_toOpt, hf, Option.map_none']
      rw [hstep, ih segs subs hok hns]
      simp only [applyNames, insKeys, List.foldl_cons, hf]
    | some v =>
      have hvb : braceFree v = true := hvals (n, v) (assocFind_mem params n v hf)
      have hstep : substStep (toOptParams params) (.ok (render segs, subs)) n =
          .ok (replaceAll (tokStr n) v (render segs), insertNew subs n) := by
        simp only [substStep, assocFind_toOpt, hf, Option.map_some']
      rw [hstep, replaceAll_render n v hn1.1 hn1.2 hvb segs hok,
        ih (segs.map (substTok n v)) (insertNew subs n)
          (SegsOK_map_substTok n v hvb hok) hns]
      simp only [applyNames, insKeys, List.foldl_cons, hf]

theorem applyNames_eq_map (params : List (Str × Str)) :
    ∀ (names : List Str) (segs : List Seg),
      applyNames params names segs = segs.map (foldSeg params names) := by
  intro names
  induction names with
  | nil =>
    intro segs
    show segs = segs.map (foldSeg params [])
    rw [show foldSeg params [] = id from rfl, List.map_id]
  | cons n ns ih =>
    intro segs
    cases hf : assocFind params n with
    | none =>
      have hstep : applyNames params (n :: ns) segs = applyNames params ns segs := by
        simp only [applyNames, List.foldl_cons, hf]
      have hfun : foldSeg params (n :: ns) = foldSeg params ns := by
        funext sg
        simp only [foldSeg, List.foldl_cons, hf]
      rw [hstep, ih, hfun]
    | some v =>
      have hstep : applyNames params (n :: ns) segs =
          applyNames params ns (segs.map (substTok n v)) := by
        simp only [applyNames, List.foldl_cons, hf]
      have hfun : foldSeg params (n :: ns) = foldSeg params ns ∘ substTok n v := by
        funext sg
        simp only [foldSeg, List.foldl_cons, hf, Function.comp]
      rw [hstep, ih, List.map_map, hfun]

theorem foldSeg_plain (params : List (Str × Str)) :
    ∀ (names : List Str) (s : Str), foldSeg params names (.plain s) = .plain s := by
  intro names
  induction names with
  | nil =>
    intro s
    rfl
  | cons n ns ih =>
    intro s
    cases hf : assocFind params n with
    | none =>
      have hstep : foldSeg params (n :: ns) (.plain s) = foldSeg params ns (.plain s) := by
        simp only [foldSeg, List.foldl_cons, hf]
      rw [hstep, ih]
    | some v =>
      have hstep : foldSeg params (n :: ns) (.plain s) = foldSeg params ns (.plain s) := by
        simp only [foldSeg, List.foldl_cons, hf, substTok]
      rw [hstep, ih]

theorem foldSeg_tok_none (params : List (Str × Str)) {n : Str}
    (hf : assocFind params n = none) :
    ∀ (names : List Str), foldSeg params names (.tok n) = .tok n := by
  intro names
  induction names with
  | nil => rfl
  | cons m ms ih =>
    cases hm : assocFind params m with
    | none =>
      have hstep : foldSeg params (m :: ms) (.tok n) = foldSeg params ms (.tok n) := by
        simp only [foldSeg, List.foldl_cons, hm]
      rw [hstep, ih]
    | some v =>
      have hnm : n ≠ m := by
        intro he
        rw [he, hm] at hf
        cases hf
      have h2 : substTok m v (.tok n) = .tok n := by
        simp only [substTok, if_neg hnm]
      have hstep : foldSeg params (m :: ms) (.tok n) = foldSeg params ms (.tok n) := by
        simp only [foldSeg, List.foldl_cons, hm, h2]
      rw [hstep, ih]

theorem foldSeg_tok_mem (params : List (Str × Str)) {n : Str} {v : Str}
    (hf : assocFind params n = some v) :
    ∀ (names : List Str), n ∈ names → foldSeg params names (.tok n) = .plain v := by
  intro names
  induction names with
  | nil =>
    intro h
    cases h
  | cons m ms ih =>
    intro hmem
    by_cases hnm : n = m
    · subst hnm
      have h2 : substTok n v (.tok n) = .plain v := by
        simp [substTok]
      have hstep : foldSeg params (n :: ms) (.tok n) = foldSeg params ms (.plain v) := by
        simp only [foldSeg, List.foldl_cons, hf, h2]
      rw [hstep, foldSeg_plain]
    · have hmem2 : n ∈ ms := by
        cases hmem with
        | head => exact absurd rfl hnm
        | tail _ h2 => exact h2
      cases hm : assocFind params m with
      | none =>
        have hstep : foldSeg params (m :: ms) (.tok n) = foldSeg params ms (.tok n) := by
          simp only [foldSeg, List.foldl_cons, hm]
        rw [hstep, ih hmem2]
      | some w =>
        have h2 : substTok m w (.tok n) = .tok n := by
          simp only [substTok, if_neg hnm]
        have hstep : foldSeg params (m :: ms) (.tok n) = foldSeg params ms (.tok n) := by
          simp only [foldSeg, List.foldl_cons, hm, h2]
        rw [hstep, ih hmem2]

theorem foldSeg_tokNames (params : List (Str × Str)) {segs : List Seg} :
    ∀ sg ∈ segs, foldSeg params (tokNames segs) sg = fullSub params sg := by
  intro sg hsg
  cases sg with
  | plain s =>
    rw [foldSeg_plain]
    rfl
  | tok n =>
    cases hf : assocFind params n with
    | none =>
      rw [foldSeg_tok_none params hf]
      simp only [fullSub, hf]
    | some v =>
      rw [foldSeg_tok_mem params hf _ (mem_tokNames hsg)]
      simp only [fullSub, hf]

theorem map_congr_mem {α β : Type} (f g : α → β) :
    ∀ (l : List α), (∀ a ∈ l, f a = g a) → l.map f = l.map g := by
  intro l
  induction l with
  | nil =>
    intro _
    rfl
  | cons a as ih =>
    intro h
    simp only [List.map_cons]
    rw [h a (List.mem_cons_self _ _), ih (fun b hb => h b (List.mem_cons_of_mem _ hb))]

theorem mem_insertNew {subs : List Str} {n m : Str} :
    m ∈ insertNew subs n ↔ m ∈ subs ∨ m = n := by
  unfold insertNew
  cases h : subs.contains n with
  | true =>
    rw [if_pos rfl]
    constructor
    · exact Or.inl
    · intro hc
      cases hc with
      | inl h2 => exact h2
      | inr h2 =>
        subst h2
        exact List.mem_of_elem_eq_true h
  | false =>
    rw [if_neg (by simp)]
    constructor
    · intro hm
      rcases List.mem_append.mp hm with h2 | h2
      · exact Or.inl h2
      · exact Or.inr (List.mem_singleton.mp h2)
    · intro hc
      cases hc with
      | inl h2 => exact List.mem_append.mpr (Or.inl h2)
      | inr h2 => exact List.mem_append.mpr (Or.inr (by simp [h2]))

theorem nodup_insertNew {subs : List Str} {n : Str} (h : subs.Nodup) :
    (insertNew subs n).Nodup := by
  unfold insertNew
  cases hc : subs.contains n with
  | true =>
    rw [if_pos rfl]
    exact h
  | false =>
    rw [if_neg (by simp)]
    refine List.Nodup.append h (List.nodup_singleton n) ?_
    intro a ha hb
    rw [List.mem_singleton] at hb
    subst hb
    have h2 := List.elem_eq_true_of_mem ha
    rw [show subs.contains a = subs.elem a from rfl, h2] at hc
    simp at hc

theorem mem_insKeys (params : List (Str × Str)) :
    ∀ (names : List Str) (subs : List Str) (m : Str),
      m ∈ insKeys params names subs ↔
        m ∈ subs ∨ (m ∈ names ∧ assocFind params m ≠ none) := by
  intro names
  induction names with
  | nil =>
    intro subs m
    simp [insKeys]
  | cons n ns ih =>
    intro subs m
    cases hf : assocFind params n with
    | none =>
      have hstep : insKeys params (n :: ns) subs = insKeys params ns subs := by
        simp only [insKeys, List.foldl_cons, hf]
      rw [hstep, ih]
      constructor
      · intro hc
        rcases hc with h2 | ⟨h2, h3⟩
        · exact Or.inl h2
        · exact Or.inr ⟨List.mem_cons_of_mem _ h2, h3⟩
      · intro hc
        rcases hc with h2 | ⟨h2, h3⟩
        · exact Or.inl h2
        · cases h2 with
          | head => exact absurd hf h3
          | tail _ h4 => exact Or.inr ⟨h4, h3⟩
    | some v =>
      have hstep : insKeys params (n :: ns) subs =
          insKeys params ns (insertNew subs n) := by
        simp only [insKeys, List.foldl_cons, hf]
      rw [hstep, ih]
      constructor
      · intro hc
        rcases hc with h2 | ⟨h2, h3⟩
        · rcases mem_insertNew.mp h2 with h4 | h4
          · exact Or.inl h4
          · subst h4
            refine Or.inr ⟨List.mem_cons_self _ _, ?_⟩
            rw [hf]
            exact fun hx => Option.noConfusion hx
        · exact Or.inr ⟨List.mem_cons_of_mem _ h2, h3⟩
      · intro hc
        rcases hc with h2 | ⟨h2, h3⟩
        · exact Or.inl (mem_insertNew.mpr (Or.inl h2))
        · cases h2 with
          | head => exact Or.inl (mem_insertNew.mpr (Or.inr rfl))
          | tail _ h4 => exact Or.inr ⟨h4, h3⟩

theorem nodup_insKeys (params : List (Str × Str)) :
    ∀ (names subs : List Str), subs.Nodup → (insKeys params names subs).Nodup := by
  intro names
  induction names with
  | nil =>
    intro subs h
    exact h
  | cons n ns ih =>
    intro subs h
    cases hf : assocFind params n with
    | none =>
      have hstep : insKeys params (n :: ns) subs = insKeys params ns subs := by
        simp only [insKeys, List.foldl_cons, hf]
      rw [hstep]
      exact ih subs h
    | some v =>
      have hstep : insKeys params (n :: ns) subs =
          insKeys params ns (insertNew subs n) := by
        simp only [insKeys, List.foldl_cons, hf]
      rw [hstep]
      exact ih _ (nodup_insertNew h)

theorem strLeB_total : ∀ (a b : Str), strLeB a b = true ∨ strLeB b a = true := by
  intro a
  induction a with
  | nil =>
    intro b
    exact Or.inl rfl
  | cons c as ih =>
    intro b
    cases b with
    | nil => exact Or.inr rfl
    | cons d bs =>
      by_cases hlt : c < d
      · exact Or.inl (by simp [strLeB, hlt])
      · by_cases heq : c = d
        · subst heq
          rcases ih bs with h | h
          · exact Or.inl (by simp [strLeB, h])
          · exact Or.inr (by simp [strLeB, h])
        · have hdc : d < c := by
            rcases lt_trichotomy c d with h | h | h
            · exact absurd h hlt
            · exact absurd h heq
            · exact h
          exact Or.inr (by simp [strLeB, hdc])

theorem strLeB_trans : ∀ (a b c : Str),
    strLeB a b = true → strLeB b c = true → strLeB a c = true := by
  intro a
  induction a with
  | nil =>
    intro b c _ _
    rfl
  | cons x as ih =>
    intro b c hab hbc
    cases b with
    | nil => simp [strLeB] at hab
    | cons y bs =>
      cases c with
      | nil => simp [strLeB] at hbc
      | cons z cs =>
        simp only [strLeB, Bool.or_eq_true, Bool.and_eq_true, decide_eq_true_eq,
          beq_iff_eq] at hab hbc ⊢
        rcases hab with h1 | ⟨h1, h2⟩
        · rcases hbc with h3 | ⟨h3, h4⟩
          · exact Or.inl (lt_trans h1 h3)
          · subst h3
            exact Or.inl h1
        · subst h1
          rcases hbc with h3 | ⟨h3, h4⟩
          · exact Or.inl h3
          · subst h3
            exact Or.inr ⟨rfl, ih bs cs h2 h4⟩

theorem mem_sinsert {x m : Str} : ∀ (l : List Str), m ∈ sinsert x l ↔ m = x ∨ m ∈ l := by
  intro l
  induction l with
  | nil => simp [sinsert]
  | cons y ys ih =>
    unfold sinsert
    by_cases h : strLeB x y = true
    · rw [if_pos h]
      simp [List.mem_cons]
    · rw [if_neg h]
      simp only [List.mem_cons, ih]
      tauto

theorem sinsert_sorted {x : Str} : ∀ {l : List Str},
    l.Pairwise (fun a b => strLeB a b = true) →
    (sinsert x l).Pairwise (fun a b => strLeB a b = true) := by
  intro l
  induction l with
  | nil =>
    intro _
    simp [sinsert]
  | cons y ys ih =>
    intro h
    rw [List.pairwise_cons] at h
    unfold sinsert
    by_cases hxy : strLeB x y = true
    · rw [if_pos hxy]
      rw [List.pairwise_cons]
      constructor
      · intro b hb
        cases hb with
        | head => exact hxy
        | tail _ h2 => exact strLeB_trans x y b hxy (h.1 b h2)
      · rw [List.pairwise_cons]
        exact h
    · rw [if_neg hxy]
      rw [List.pairwise_cons]
      constructor
      · intro b hb
        rcases (mem_sinsert ys).mp hb with h2 | h2
        · rw [h2]
          rcases strLeB_total x y with h3 | h3
          · exact absurd h3 hxy
          · exact h3
        · exact h.1 b h2
      · exact ih h.2

theorem sortStr_sorted : ∀ (l : List Str),
    (sortStr l).Pairwise (fun a b => strLeB a b = true) := by
  intro l
  induction l with
  | nil => simp [sortStr]
  | cons x xs ih => exact sinsert_sorted ih

theorem mem_sortStr {m : Str} : ∀ (l : List Str), m ∈ sortStr l ↔ m ∈ l := by
  intro l
  induction l with
  | nil => simp [sortStr]
  | cons x xs ih =>
    rw [show sortStr (x :: xs) = sinsert x (sortStr xs) from rfl,
      mem_sinsert (sortStr xs), ih]
    simp [List.mem_cons]

theorem nodup_sinsert {x : Str} : ∀ {l : List Str},
    x ∉ l → l.Nodup → (sinsert x l).Nodup := by
  intro l
  induction l with
  | nil =>
    intro _ _
    simp [sinsert]
  | cons y ys ih =>
    intro hx h
    rw [List.nodup_cons] at h
    unfold sinsert
    by_cases hxy : strLeB x y = true
    · rw [if_pos hxy]
      rw [List.nodup_cons]
      refine ⟨hx, ?_⟩
      rw [List.nodup_cons]
      exact h
    · rw [if_neg hxy]
      rw [List.nodup_cons]
      constructor
      · intro hy
        rcases (mem_sinsert ys).mp hy with h2 | h2
        · refine hx ?_
          rw [← h2]
          exact List.mem_cons_self _ _
        · exact h.1 h2
      · exact ih (fun h2 => hx (List.mem_cons_of_mem _ h2)) h.2

theorem nodup_sortStr : ∀ {l : List Str}, l.Nodup → (sortStr l).Nodup := by
  intro l
  induction l with
  | nil =>
    intro _
    simp [sortStr]
  | cons x xs ih =>
    intro h
    rw [List.nodup_cons] at h
    exact nodup_sinsert (fun h2 => h.1 ((mem_sortStr xs).mp h2)) (ih h.2)

/-- C6 amended: for content assembled from brace-free plain runs and
well-formed placeholder tokens, and a mapping none of whose values contains a
brace character, substitute_content returns exactly the simultaneous
substitution the specification describes (every token whose name is a mapping
key replaced by the value, everything else verbatim), and the exposed
substituted-parameter list is sorted, duplicate-free, and holds exactly the
matched names that are mapping keys. -/
theorem C6_amended_substitution (params : List (Str × Str)) (segs : List Seg)
    (hvals : ∀ pr ∈ params, braceFree pr.2 = true) (hok : SegsOK segs = true) :
    ∃ subs,
      substitute_content (toOptParams params) [] (render segs) =
        .ok (specSubstitute params (render segs), subs) ∧
      (get_substituted_parameters subs).Pairwise (fun a b => strLeB a b = true) ∧
      (get_substituted_parameters subs).Nodup ∧
      ∀ n, n ∈ get_substituted_parameters subs ↔
        (n ∈ findTokens (render segs) ∧ assocFind params n ≠ none) := by
  refine ⟨insKeys params (tokNames segs) [], ?_, ?_, ?_, ?_⟩
  · unfold substitute_content
    rw [findTokens_render segs hok,
      subst_fold params hvals (tokNames segs) segs [] hok
        (fun n hn => tokNames_ok hok hn)]
    have hmain : render (applyNames params (tokNames segs) segs) =
        specSubstitute params (render segs) := by
      rw [applyNames_eq_map, map_congr_mem _ _ segs (foldSeg_tokNames params),
        specSubstitute_render params segs hok]
    rw [hmain]
  · exact sortStr_sorted _
  · exact nodup_sortStr (nodup_insKeys params (tokNames segs) [] List.nodup_nil)
  · intro n
    unfold get_substituted_parameters
    rw [mem_sortStr, mem_insKeys, findTokens_render segs hok]
    simp

/-- Witness for C6 amended at a concrete input: mapping X to v over the
content a followed by the X token followed by b. -/
theorem C6_amended_substitution_witness :
    (∀ pr ∈ [((['X'] : Str), (['v'] : Str))], braceFree pr.2 = true) ∧
    SegsOK [Seg.plain ['a'], Seg.tok ['X'], Seg.plain ['b']] = true ∧
    ∃ subs,
      substitute_content (toOptParams [(['X'], ['v'])]) []
          (render [Seg.plain ['a'], Seg.tok ['X'], Seg.plain ['b']]) =
        .ok (specSubstitute [(['X'], ['v'])]
          (render [Seg.plain ['a'], Seg.tok ['X'], Seg.plain ['b']]), subs) ∧
      (get_substituted_parameters subs).Pairwise (fun a b => strLeB a b = true) ∧
      (get_substituted_parameters subs).Nodup ∧
      ∀ n, n ∈ get_substituted_parameters subs ↔
        (n ∈ findTokens (render [Seg.plain ['a'], Seg.tok ['X'], Seg.plain ['b']]) ∧
          assocFind [(['X'], ['v'])] n ≠ none) :=
  ⟨by decide, by decide,
    C6_amended_substitution [(['X'], ['v'])]
      [Seg.plain ['a'], Seg.tok ['X'], Seg.plain ['b']] (by decide) (by decide)⟩
